import Mathlib

/-!
# A verification model of `wheelhouse_uploader/upload.py`

This file gives a shallow embedding of the upload orchestration code of
`wheelhouse-uploader` (the `Uploader` class in `wheelhouse_uploader/upload.py`)
and proves properties of that embedding.

Modelling conventions:

* Python dictionaries (`metadata`, `local_metadata`) are association lists
  `List (String × α)`; `dict.update` is `dictUpdate`, which replaces the value
  of an existing key in place and appends unknown keys in order, exactly like
  CPython's insertion-ordered dicts.
* The remote store (libcloud driver + container) is a `StoreState`: a flag
  saying whether the container exists plus an association list of named
  objects.  Each driver call is a pure function of this state; exceptions are
  `Except Err`.  Transient failures of the store are injected through a
  `Faults` record (which names the uploads/deletions that raise).
* The thread pool of `_upload_files` is modelled by an explicit completion
  schedule: the caller supplies `schedOf`, mapping the submitted task list to
  the order in which tasks complete.  As in the Python code (where the
  `ThreadPoolExecutor` context manager waits for every submitted future),
  every task runs to completion and mutates the store; the first error in
  completion order is raised afterwards.
* The local directory is a `Folder`: an association list from entry name to
  `Entry` (file contents as a byte list, a subdirectory, or an unreadable
  file).  `os.listdir` returns the names, `sorted` is `List.insertionSort`.
  `os.path.join`/`os.path.basename` are mutually inverse for directory
  entries (names never contain a path separator), so the model passes entry
  names where the Python code passes full paths and takes basenames again.
* `hashlib.sha256(...).hexdigest()` is `sha256Hex`, a complete executable
  implementation of FIPS 180-4 SHA-256 over byte lists, with 32-bit words
  represented as `Nat` reduced modulo `2 ^ 32`.
* Events (`Event`) record the externally visible store mutations in order, so
  that temporal claims about the publish sequence can be stated.
-/

namespace Wheelhouse

deriving instance DecidableEq for Except

/-! ## Association lists modelling Python dicts -/

/-- First-match lookup in an association list (Python `d[k]` / `d.get(k)`). -/
def lookupKey {α : Type} : List (String × α) → String → Option α
  | [], _ => none
  | (k', v) :: rest, k => if k' = k then some v else lookupKey rest k

/-- `d[k] = v` on an insertion-ordered dict: replace the value of an existing
key in place, otherwise append the new binding at the end. -/
def insertEntry {α : Type} : List (String × α) → String → α →
    List (String × α)
  | [], k, v => [(k, v)]
  | (k', v') :: rest, k, v =>
    if k' = k then (k', v) :: rest
    else (k', v') :: insertEntry rest k v

/-- Python `d.update(e)`: fold every binding of `e` into `d` in order. -/
def dictUpdate {α : Type} (d e : List (String × α)) : List (String × α) :=
  e.foldl (fun acc kv => insertEntry acc kv.1 kv.2) d

/-- Remove every binding of a key (object deletion in the store model). -/
def eraseKey {α : Type} (d : List (String × α)) (k : String) :
    List (String × α) :=
  d.filter (fun e => e.1 ≠ k)

/-! ## The retry wrapper `Uploader.upload`

`upload` calls `_try_upload_once`; an `InvalidCredsError` is re-raised at
once, any other exception is retried after `sleep(1)` while the counter is
positive.  For the purpose of the retry claims the single attempt is
abstracted by an outcome oracle `attempt : Nat → AttemptOutcome` giving the
outcome of the `i`-th invocation of `_try_upload_once`. -/

/-- Outcome of one invocation of `_try_upload_once`. -/
inductive AttemptOutcome : Type
  | success
  | credsError
  | transientError
deriving DecidableEq, Repr

/-- Final outcome of `Uploader.upload`. -/
inductive RetryResult : Type
  | ok
  | raisedCreds
  | raisedTransient
deriving DecidableEq, Repr

/-- What a run of `Uploader.upload` did: how many times `_try_upload_once`
was invoked, how many `sleep(1)` delays were observed, and the outcome. -/
structure RetryRun : Type where
  invocations : Nat
  sleeps : Nat
  result : RetryResult
deriving DecidableEq, Repr

/-- `Uploader.upload(local_folder, container, retry_on_error)`, lines 42-56:
invoke the attempt; re-raise `InvalidCredsError`; on any other error, raise if
`retry_on_error <= 0`, else sleep once and recurse with the counter
decremented.  `start` is the index of the current invocation. -/
def upload (attempt : Nat → AttemptOutcome) : Nat → Nat → RetryRun
  | start, retry_on_error =>
    match attempt start with
    | .success => ⟨1, 0, .ok⟩
    | .credsError => ⟨1, 0, .raisedCreds⟩
    | .transientError =>
      match retry_on_error with
      | 0 => ⟨1, 0, .raisedTransient⟩
      | r + 1 =>
        let rr := upload attempt (start + 1) r
        ⟨rr.invocations + 1, rr.sleeps + 1, rr.result⟩

/-! ## SHA-256 (FIPS 180-4), the semantics of `hashlib.sha256(...).hexdigest()`

Words are `Nat` values kept below `2 ^ 32`; every operation that can
overflow reduces modulo `2 ^ 32`.  Messages are byte lists (each < 256). -/

/-- `2 ^ 32`. -/
def M32 : Nat := 4294967296

/-- 32-bit addition. -/
def add32 (a b : Nat) : Nat := (a + b) % M32

/-- 32-bit right rotation. -/
def rotr (n x : Nat) : Nat := Nat.lor (x >>> n) ((x <<< (32 - n)) % M32)

/-- 32-bit complement. -/
def not32 (x : Nat) : Nat := Nat.xor x 4294967295

/-- FIPS 180-4 `Ch(x, y, z)`. -/
def chW (x y z : Nat) : Nat := Nat.xor (Nat.land x y) (Nat.land (not32 x) z)

/-- FIPS 180-4 `Maj(x, y, z)`. -/
def majW (x y z : Nat) : Nat :=
  Nat.xor (Nat.xor (Nat.land x y) (Nat.land x z)) (Nat.land y z)

/-- FIPS 180-4 `Σ₀`. -/
def bigSigma0 (x : Nat) : Nat :=
  Nat.xor (Nat.xor (rotr 2 x) (rotr 13 x)) (rotr 22 x)

/-- FIPS 180-4 `Σ₁`. -/
def bigSigma1 (x : Nat) : Nat :=
  Nat.xor (Nat.xor (rotr 6 x) (rotr 11 x)) (rotr 25 x)

/-- FIPS 180-4 `σ₀`. -/
def smallSigma0 (x : Nat) : Nat :=
  Nat.xor (Nat.xor (rotr 7 x) (rotr 18 x)) (x >>> 3)

/-- FIPS 180-4 `σ₁`. -/
def smallSigma1 (x : Nat) : Nat :=
  Nat.xor (Nat.xor (rotr 17 x) (rotr 19 x)) (x >>> 10)

/-- The 64 SHA-256 round constants. -/
def sha256K : List Nat :=
  [1116352408, 1899447441, 3049323471,
   3921009573, 961987163, 1508970993,
   2453635748, 2870763221, 3624381080,
   310598401, 607225278, 1426881987,
   1925078388, 2162078206, 2614888103,
   3248222580, 3835390401, 4022224774,
   264347078, 604807628, 770255983,
   1249150122, 1555081692, 1996064986,
   2554220882, 2821834349, 2952996808,
   3210313671, 3336571891, 3584528711,
   113926993, 338241895, 666307205,
   773529912, 1294757372, 1396182291,
   1695183700, 1986661051, 2177026350,
   2456956037, 2730485921, 2820302411,
   3259730800, 3345764771, 3516065817,
   3600352804, 4094571909, 275423344,
   430227734, 506948616, 659060556,
   883997877, 958139571, 1322822218,
   1537002063, 1747873779, 1955562222,
   2024104815, 2227730452, 2361852424,
   2428436474, 2756734187, 3204031479,
   3329325298]

/-- The SHA-256 initial hash value. -/
def sha256H0 : List Nat :=
  [1779033703, 3144134277, 1013904242,
   2773480762, 1359893119, 2600822924,
   528734635, 1541459225]

/-- The message length in bits as 8 big-endian bytes. -/
def lengthBytes (bits : Nat) : List Nat :=
  (List.range 8).map (fun i => bits >>> (8 * (7 - i)) % 256)

/-- SHA-256 padding: append `0x80`, zero bytes up to 56 mod 64, then the
64-bit big-endian bit length. -/
def padMessage (msg : List Nat) : List Nat :=
  msg ++ [128] ++ List.replicate ((119 - msg.length % 64) % 64) 0 ++
    lengthBytes (msg.length * 8)

/-- Group bytes into 32-bit big-endian words. -/
def toWords : List Nat → List Nat
  | b0 :: b1 :: b2 :: b3 :: rest =>
    (((b0 * 256 + b1) * 256 + b2) * 256 + b3) :: toWords rest
  | _ => []

/-- Split a word list into 16-word blocks (`fuel` bounds the number of
steps; it is instantiated with the list length, which suffices since every
step drops at least one element of a non-empty list). -/
def toBlocksGo : Nat → List Nat → List (List Nat)
  | 0, _ => []
  | _, [] => []
  | fuel + 1, w :: rest =>
    (w :: rest).take 16 :: toBlocksGo fuel ((w :: rest).drop 16)

/-- Split a word list into 16-word blocks. -/
def toBlocks (l : List Nat) : List (List Nat) :=
  toBlocksGo l.length l

/-- The next word of the message schedule, from the words built so far. -/
def nextScheduleWord (w : List Nat) : Nat :=
  add32 (add32 (smallSigma1 (w.getD (w.length - 2) 0)) (w.getD (w.length - 7) 0))
    (add32 (smallSigma0 (w.getD (w.length - 15) 0)) (w.getD (w.length - 16) 0))

/-- Extend a 16-word block to the 64-word message schedule. -/
def buildSchedule (block : List Nat) : List Nat :=
  (List.range 48).foldl (fun w _ => w ++ [nextScheduleWord w]) block

/-- One SHA-256 round on the working variables `[a, b, c, d, e, f, g, h]`. -/
def roundStep (w : List Nat) (st : List Nat) (i : Nat) : List Nat :=
  match st with
  | [a, b, c, d, e, f, g, h] =>
    let t1 := add32 h (add32 (bigSigma1 e)
      (add32 (chW e f g) (add32 (sha256K.getD i 0) (w.getD i 0))))
    let t2 := add32 (bigSigma0 a) (majW a b c)
    [add32 t1 t2, a, b, c, add32 d t1, e, f, g]
  | _ => st

/-- Compress one 16-word block into the running hash value. -/
def processBlock (h : List Nat) (block : List Nat) : List Nat :=
  let w := buildSchedule block
  let st := (List.range 64).foldl (roundStep w) h
  List.zipWith add32 h st

/-- The SHA-256 digest of a byte list, as eight 32-bit words. -/
def sha256Words (msg : List Nat) : List Nat :=
  (toBlocks (toWords (padMessage msg))).foldl processBlock sha256H0

/-- A hex digit character (lowercase). -/
def hexDigit (n : Nat) : Char :=
  if n < 10 then Char.ofNat (48 + n) else Char.ofNat (87 + n)

/-- A 32-bit word as 8 lowercase hex characters. -/
def wordHex (w : Nat) : List Char :=
  (List.range 8).map (fun i => hexDigit (w >>> (4 * (7 - i)) % 16))

/-- `hashlib.sha256(content).hexdigest()`: the standard lowercase-hex SHA-256
digest of a byte list. -/
def sha256Hex (msg : List Nat) : String :=
  ⟨(sha256Words msg).foldr (fun w acc => wordHex w ++ acc) []⟩

/-! ## Kernel-reducible string comparison (Python's code-point order)

Python compares strings lexicographically by code point.  (Mathlib's order
instances on `String` go through `String.ltb`, whose well-founded recursion
the kernel cannot evaluate, so the model carries its own structurally
recursive comparison.) -/

/-- Lexicographic `≤` on code-point lists. -/
def natListLe : List Nat → List Nat → Bool
  | [], _ => true
  | _ :: _, [] => false
  | a :: as, b :: bs => decide (a < b) || (a == b && natListLe as bs)

/-- Lexicographic `<` on code-point lists. -/
def natListLt : List Nat → List Nat → Bool
  | [], [] => false
  | [], _ :: _ => true
  | _ :: _, [] => false
  | a :: as, b :: bs => decide (a < b) || (a == b && natListLt as bs)

/-- The code points of a string. -/
def codes (s : String) : List Nat := s.data.map Char.toNat

/-- Python's `a <= b` on strings. -/
def strLe (a b : String) : Bool := natListLe (codes a) (codes b)

/-- Python's `a < b` on strings. -/
def strLt (a b : String) : Bool := natListLt (codes a) (codes b)

/-- `strLe` as a relation (for `List.insertionSort` / `List.Sorted`). -/
def strLeP (a b : String) : Prop := strLe a b = true

instance : DecidableRel strLeP := fun a b => by
  unfold strLeP; infer_instance

theorem natListLe_total (x y : List Nat) :
    natListLe x y = true ∨ natListLe y x = true := by
  induction x generalizing y with
  | nil => left; simp [natListLe]
  | cons a as ih =>
    cases y with
    | nil => right; simp [natListLe]
    | cons b bs =>
      simp only [natListLe, Bool.or_eq_true, Bool.and_eq_true,
        decide_eq_true_eq, beq_iff_eq]
      rcases Nat.lt_trichotomy a b with h | h | h
      · left; left; exact h
      · rcases ih bs with h2 | h2
        · exact Or.inl (Or.inr ⟨h, h2⟩)
        · exact Or.inr (Or.inr ⟨h.symm, h2⟩)
      · right; left; exact h

theorem natListLe_trans (x y z : List Nat) (hxy : natListLe x y = true)
    (hyz : natListLe y z = true) : natListLe x z = true := by
  induction x generalizing y z with
  | nil => simp [natListLe]
  | cons a as ih =>
    cases y with
    | nil => simp [natListLe] at hxy
    | cons b bs =>
      cases z with
      | nil => simp [natListLe] at hyz
      | cons c cs =>
        simp only [natListLe, Bool.or_eq_true, Bool.and_eq_true,
          decide_eq_true_eq, beq_iff_eq] at hxy hyz ⊢
        rcases hxy with h1 | ⟨rfl, h1⟩
        · rcases hyz with h2 | ⟨rfl, h2⟩
          · exact Or.inl (h1.trans h2)
          · exact Or.inl h1
        · rcases hyz with h2 | ⟨rfl, h2⟩
          · exact Or.inl h2
          · exact Or.inr ⟨rfl, ih bs cs h1 h2⟩

instance : IsTotal String strLeP :=
  ⟨fun a b => natListLe_total (codes a) (codes b)⟩

instance : IsTrans String strLeP :=
  ⟨fun a b c => natListLe_trans (codes a) (codes b) (codes c)⟩

/-- Does `pat` occur at the head of `l`? -/
def leadsWith : List Char → List Char → Bool
  | [], _ => true
  | _ :: _, [] => false
  | p :: ps, c :: cs => p = c && leadsWith ps cs

/-- Does `pat` occur anywhere in `l`? -/
def hasSeq (pat : List Char) : List Char → Bool
  | [] => pat.isEmpty
  | c :: cs => leadsWith pat (c :: cs) || hasSeq pat cs

/-- Python's `s.endswith(suffix)`. -/
def strEndsWith (s suf : String) : Bool :=
  leadsWith suf.data.reverse s.data.reverse

/-! ## The local folder and `Uploader._scan_local_files` -/

/-- What a directory entry is: a regular file with byte contents, a
subdirectory, or a file whose `open(...).read()` raises `IOError`. -/
inductive Entry : Type
  | file (content : List Nat)
  | dir
  | unreadable
deriving DecidableEq, Repr

/-- A local directory: entry name → entry.  `os.listdir` yields the names. -/
abbrev Folder := List (String × Entry)

/-- One value of the manifest: the `dict(sha256=..., size=...)` built by the
scanner.  Both fields are optional because a manifest loaded from a remote
JSON object need not carry them (`object_metadata.get('sha256')`). -/
structure FileMetadata : Type where
  sha256 : Option String := none
  size : Option Nat := none
deriving DecidableEq, Repr

/-- The manifest: filename → `FileMetadata`, insertion ordered. -/
abbrev Manifest := List (String × FileMetadata)

/-- Errors raised by the modelled operations. -/
inductive Err : Type
  | containerDoesNotExist
  | objectDoesNotExist
  | invalidCreds
  | parseError
  | ioError
  | uploadFailed (name : String)
  | deleteFailed (name : String)
deriving DecidableEq, Repr

/-- `filename.startswith('.')`. -/
def isHidden (n : String) : Bool :=
  match n.data with
  | c :: _ => c = '.'
  | [] => false

/-- The metadata the scanner records for a file's bytes. -/
def mkMeta (content : List Nat) : FileMetadata :=
  { sha256 := some (sha256Hex content), size := some content.length }

/-- The loop body of `_scan_local_files` over an already-sorted name list:
skip hidden names, skip directories, abort on the first unreadable file, and
otherwise record the name (the joined path, see the module comment) and its
digest/size metadata. -/
def scanGo (folder : Folder) : List String →
    Except Err (List String × Manifest)
  | [] => .ok ([], [])
  | n :: rest =>
    if isHidden n then scanGo folder rest
    else
      match lookupKey folder n with
      | some .dir => scanGo folder rest
      | some (.file c) =>
        match scanGo folder rest with
        | .error e => .error e
        | .ok (ps, md) => .ok (n :: ps, (n, mkMeta c) :: md)
      | some .unreadable => .error .ioError
      | none => .error .ioError

/-- `Uploader._scan_local_files`, lines 132-150: visit the directory entries
in sorted order and return the file list together with the local metadata
fragment. -/
def scan_local_files (folder : Folder) :
    Except Err (List String × Manifest) :=
  scanGo folder (List.insertionSort strLeP (folder.map Prod.fst))

/-! ## The remote store model -/

/-- The content of a remote object: a package file's bytes, the manifest
object (stored as its parsed JSON value; serialisation to `metadata.json`
round-trips), or an HTML page. -/
inductive ObjectData : Type
  | blob (content : List Nat)
  | jsonManifest (m : Manifest)
  | page (html : String)
deriving DecidableEq, Repr

/-- The remote container: whether it exists, and its named objects in
listing order. -/
structure StoreState : Type where
  containerExists : Bool := false
  objects : List (String × ObjectData) := []
deriving DecidableEq, Repr

/-- The externally visible store mutations, in the order they happen. -/
inductive Event : Type
  | createdContainer
  | uploadedFile (name : String)
  | deletedObject (name : String)
  | wroteManifest
  | wroteIndex
deriving DecidableEq, Repr

/-- Injected transient store failures: which object uploads raise and which
object deletions raise (a non-`ObjectDoesNotExistError` error). -/
structure Faults : Type where
  uploadFails : String → Bool
  deleteFails : String → Bool

/-- A fault-free store. -/
def noFaults : Faults := ⟨fun _ => false, fun _ => false⟩

/-- `Uploader.index_filename`. -/
def indexFilename : String := "index.html"

/-- `Uploader.metadata_filename`. -/
def metadataFilename : String := "metadata.json"

/-- The configuration held by the `Uploader` object that the modelled code
paths read: `update_index`, `delete_previous_dev_packages`, and the dev-build
matching rule used while pruning (see `matching_dev_filenames`). -/
structure Config : Type where
  update_index : Bool := true
  delete_previous_dev_packages : Bool := true
  matcher : String → List String → List String

/-- `driver.upload_object_via_stream(...)`: overwrite or create the named
object, unless a transient fault makes this upload raise. -/
def uploadObject (faults : Faults) (st : StoreState) (name : String)
    (data : ObjectData) : Except Err StoreState :=
  if faults.uploadFails name then .error (.uploadFailed name)
  else .ok { st with objects := insertEntry st.objects name data }

/-- `object_.name.endswith(('.json', '.html'))`: the reserved suffixes of
`_get_package_filenames`. -/
def reservedName (n : String) : Bool :=
  strEndsWith n ".json" || strEndsWith n ".html"

/-- `Uploader._get_package_filenames`, lines 101-108: list the container and
keep the names that do not end in `.json` or `.html`, in listing order. -/
def get_package_filenames (objects : List (String × ObjectData)) :
    List String :=
  objects.foldl
    (fun acc o => if reservedName o.1 then acc else acc ++ [o.1]) []

/-! ### Dev-filename matching (code outside `src/`)

`matching_dev_filenames` is imported from `wheelhouse_uploader/utils.py`,
which is not among the provided sources; the definitions below are modelled
from the spec. -/

/-- The project part of a package filename: the characters before the first
`-`. -/
def projectOf (n : String) : List Char :=
  n.data.takeWhile (fun c => c ≠ '-')

/-- Whether a filename is a development build: its name carries a `.dev`
marker. -/
def isDevBuild (n : String) : Bool :=
  hasSeq ".dev".data n.data

/-- Modelled from the spec: `matching_dev_filenames(filename,
existing_filenames)` from `wheelhouse_uploader/utils.py` (not in the provided
sources).  Per spec §4.6 and §4.3 it is a pure function selecting, among the
existing remote filenames, the earlier development builds of the same
logical package as the just-uploaded filename, never the uploaded filename
itself.  Here: same project part, a `.dev` marker, and a strictly smaller
name, excluding `filename`. -/
def matching_dev_filenames (filename : String) (existing : List String) :
    List String :=
  existing.filter (fun g =>
    g ≠ filename && projectOf g = projectOf filename && isDevBuild g &&
      strLt g filename)

/-! ## `Uploader.upload_file` and pruning -/

/-- `open(filepath, 'rb').read()` for a directory entry. -/
def readFile (folder : Folder) (n : String) : Except Err (List Nat) :=
  match lookupKey folder n with
  | some (.file c) => .ok c
  | _ => .error .ioError

/-- The byte content of a folder entry (meaningful when it is a file). -/
def fileContent (folder : Folder) (n : String) : List Nat :=
  match lookupKey folder n with
  | some (.file c) => c
  | _ => []

/-- The prune loop of `upload_file`, lines 170-177: for each previous dev
filename, get the object and delete it; `ObjectDoesNotExistError` is passed
over, any other deletion error propagates (aborting the loop). -/
def pruneLoop (faults : Faults) :
    List String → StoreState → Except Err Unit × StoreState × List Event
  | [], st => (.ok (), st, [])
  | g :: rest, st =>
    match lookupKey st.objects g with
    | none => pruneLoop faults rest st
    | some _ =>
      if faults.deleteFails g then (.error (.deleteFailed g), st, [])
      else
        let r := pruneLoop faults rest { st with objects := eraseKey st.objects g }
        (r.1, r.2.1, .deletedObject g :: r.2.2)

/-- `Uploader.upload_file`, lines 152-177: resolve the container, list the
previous dev builds of the file about to be uploaded (before uploading, when
pruning is enabled), stream the file's bytes to an object named after its
basename, then prune the previous dev builds. -/
def upload_file (cfg : Config) (faults : Faults) (folder : Folder)
    (name : String) (st : StoreState) :
    Except Err Unit × StoreState × List Event :=
  if st.containerExists = false then (.error .containerDoesNotExist, st, [])
  else
    match readFile folder name with
    | .error e => (.error e, st, [])
    | .ok c =>
      match uploadObject faults st name (.blob c) with
      | .error e => (.error e, st, [])
      | .ok st1 =>
        if cfg.delete_previous_dev_packages then
          ((pruneLoop faults
              (cfg.matcher name (get_package_filenames st.objects)) st1).1,
           (pruneLoop faults
              (cfg.matcher name (get_package_filenames st.objects)) st1).2.1,
           Event.uploadedFile name ::
             (pruneLoop faults
                (cfg.matcher name (get_package_filenames st.objects))
                st1).2.2)
        else (.ok (), st1, [Event.uploadedFile name])

/-- The task pool of `_upload_files`: run every submitted task in completion
order (the `ThreadPoolExecutor` context manager waits for all futures, so
every task's store effects happen), collecting the errors of failed tasks in
completion order. -/
def uploadTasks (cfg : Config) (faults : Faults) (folder : Folder) :
    List String → StoreState → StoreState × List Event × List Err
  | [], st => (st, [], [])
  | n :: rest, st =>
    let r := upload_file cfg faults folder n st
    let rec' := uploadTasks cfg faults folder rest r.2.1
    (rec'.1, r.2.2 ++ rec'.2.1,
      match r.1 with
      | .ok _ => rec'.2.2
      | .error e => e :: rec'.2.2)

/-- `Uploader._upload_files`, lines 83-92: dispatch one `upload_file` task
per file and raise the first error found among the completed futures. -/
def upload_files (cfg : Config) (faults : Faults) (folder : Folder)
    (sched : List String) (st : StoreState) :
    Except Err Unit × StoreState × List Event :=
  let r := uploadTasks cfg faults folder sched st
  (match r.2.2 with
   | [] => .ok ()
   | e :: _ => .error e, r.1, r.2.1)

/-- `Uploader._upload_metadata_file`, lines 94-99: serialise the manifest
and upload it as `metadata.json`. -/
def upload_metadata_file (faults : Faults) (metadata : Manifest)
    (st : StoreState) : Except Err Unit × StoreState × List Event :=
  match uploadObject faults st metadataFilename (.jsonManifest metadata) with
  | .error e => (.error e, st, [])
  | .ok st' => (.ok (), st', [.wroteManifest])

/-- The index payload built by `Uploader._update_index`, lines 110-127: a
header, one list item per package filename (with a `#sha256=` fragment when
the manifest knows a digest for it), and a footer. -/
def update_index_payload (objects : List (String × ObjectData))
    (metadata : Manifest) : String :=
  let package_filenames := get_package_filenames objects
  (package_filenames.foldl
    (fun payload filename =>
      match (lookupKey metadata filename).bind FileMetadata.sha256 with
      | some digest =>
        payload ++ "<li><a href=\"" ++ filename ++ "#sha256=" ++ digest ++
          "\">" ++ filename ++ "<a></li>\n"
      | none =>
        payload ++ "<li><a href=\"" ++ filename ++ "\">" ++ filename ++
          "<a></li>\n")
    "<html><body><p>\n") ++ "</p></body></html>\n"

/-- `Uploader._update_index`, lines 110-130: build the payload from the
current listing and the manifest and upload it as `index.html`. -/
def update_index (faults : Faults) (metadata : Manifest) (st : StoreState) :
    Except Err Unit × StoreState × List Event :=
  match uploadObject faults st indexFilename
      (.page (update_index_payload st.objects metadata)) with
  | .error e => (.error e, st, [])
  | .ok st' => (.ok (), st', [.wroteIndex])

/-- The list item `_update_index` writes for a file with no known digest. -/
def plainItem (filename : String) : String :=
  "<li><a href=\"" ++ filename ++ "\">" ++ filename ++ "<a></li>\n"

/-- The list item `_update_index` writes for a file with a known digest:
the href carries a `#sha256=<digest>` fragment. -/
def fragItem (filename digest : String) : String :=
  "<li><a href=\"" ++ filename ++ "#sha256=" ++ digest ++ "\">" ++
    filename ++ "<a></li>\n"

/-- The list item rendered for a filename: a digest fragment is attached
exactly when the manifest knows a `sha256` for the filename. -/
def render_item (metadata : Manifest) (filename : String) : String :=
  match (lookupKey metadata filename).bind FileMetadata.sha256 with
  | some digest => fragItem filename digest
  | none => plainItem filename

/-- The concatenation of the rendered list items, in order. -/
def concatItems (metadata : Manifest) : List String → String
  | [] => ""
  | filename :: rest => render_item metadata filename ++ concatItems metadata rest

/-! ## `Uploader._try_upload_once` -/

/-- Lines 61-64: get the container, creating it when
`ContainerDoesNotExistError` is raised. -/
def ensureContainer (st : StoreState) : StoreState × List Event :=
  if st.containerExists then (st, [])
  else ({ st with containerExists := true }, [.createdContainer])

/-- Lines 66-74: fetch and parse `metadata.json`;
`ObjectDoesNotExistError` is caught and yields the empty manifest; an object
that does not parse as a JSON manifest raises. -/
def load_metadata (st : StoreState) : Except Err Manifest :=
  match lookupKey st.objects metadataFilename with
  | none => .ok []
  | some (.jsonManifest m) => .ok m
  | some _ => .error .parseError

/-- Lines 76-81, after the manifest was loaded: scan the local folder, merge
the local metadata over the remote manifest, upload the files, upload the
merged manifest, and update the index when configured.  `schedOf` maps the
submitted task list to its completion order. -/
def after_load (cfg : Config) (faults : Faults)
    (schedOf : List String → List String) (folder : Folder)
    (metadata0 : Manifest) (st : StoreState) :
    Except Err Unit × StoreState × List Event :=
  match scan_local_files folder with
  | .error e => (.error e, st, [])
  | .ok (filepaths, local_metadata) =>
    let metadata := dictUpdate metadata0 local_metadata
    let ru := upload_files cfg faults folder (schedOf filepaths) st
    match ru.1 with
    | .error e => (.error e, ru.2.1, ru.2.2)
    | .ok _ =>
      let rm := upload_metadata_file faults metadata ru.2.1
      match rm.1 with
      | .error e => (.error e, rm.2.1, ru.2.2 ++ rm.2.2)
      | .ok _ =>
        if cfg.update_index then
          let ri := update_index faults metadata rm.2.1
          (ri.1, ri.2.1, ru.2.2 ++ rm.2.2 ++ ri.2.2)
        else (.ok (), rm.2.1, ru.2.2 ++ rm.2.2)

/-- `Uploader._try_upload_once`, lines 58-81: ensure the container exists,
load the manifest (absent → empty), then run the publish pipeline. -/
def try_upload_once (cfg : Config) (faults : Faults)
    (schedOf : List String → List String) (folder : Folder)
    (st0 : StoreState) : Except Err Unit × StoreState × List Event :=
  let e0 := ensureContainer st0
  match load_metadata e0.1 with
  | .error e => (.error e, e0.1, e0.2)
  | .ok metadata0 =>
    let r := after_load cfg faults schedOf folder metadata0 e0.1
    (r.1, r.2.1, e0.2 ++ r.2.2)

/-! ## Concrete instances used by counterexamples and witnesses -/

/-- An attempt oracle failing transiently exactly 3 times, then succeeding. -/
def exAttempt (i : Nat) : AttemptOutcome :=
  if i < 3 then .transientError else .success

/-- An attempt oracle failing transiently twice, then with bad credentials. -/
def exCredsAttempt (i : Nat) : AttemptOutcome :=
  if i < 2 then .transientError else .credsError

/-- The default `Uploader` configuration (index updating and pruning on),
with the spec-modelled dev-filename matcher. -/
def cfgEx : Config :=
  { update_index := true, delete_previous_dev_packages := true,
    matcher := matching_dev_filenames }

/-- The same configuration with dev-package pruning disabled. -/
def cfgNoPrune : Config :=
  { cfgEx with delete_previous_dev_packages := false }

/-- A local folder holding two development builds of the same package. -/
def folderEx : Folder :=
  [("pkg-1.0.dev1.whl", .file [49]), ("pkg-1.0.dev2.whl", .file [50])]

/-- A small local folder exercising the scanner: a hidden entry, a
subdirectory, and one regular file with content `"abc"`. -/
def folderScanEx : Folder :=
  [("pkg.whl", .file [97, 98, 99]), (".hidden", .file [1]), ("sub", .dir)]

/-- A store whose container exists and which has no `metadata.json`. -/
def stNoMeta : StoreState :=
  { containerExists := true, objects := [("a.whl", .blob [1])] }

/-- A store holding a parsed `metadata.json` manifest object. -/
def stWithMeta : StoreState :=
  { containerExists := true,
    objects := [("metadata.json",
      .jsonManifest [("a.whl", { sha256 := some "s", size := some 1 })])] }

/-- A store whose `metadata.json` object is not valid JSON. -/
def stBadMeta : StoreState :=
  { containerExists := true, objects := [("metadata.json", .blob [0])] }

/-- An existing, empty container. -/
def stEmptyC : StoreState := { containerExists := true, objects := [] }

/-- A folder with a single unreadable file. -/
def folderBad : Folder := [("bad.whl", .unreadable)]

/-- A store holding one older dev build of `pkg`. -/
def stDev1 : StoreState :=
  { containerExists := true, objects := [("pkg-1.0.dev1.whl", .blob [49])] }

/-- Faults that make every object deletion raise. -/
def badDelete : Faults := ⟨fun _ => false, fun _ => true⟩

/-- Faults that make exactly the upload of `pkg-1.0.dev1.whl` raise. -/
def badUpload1 : Faults :=
  ⟨fun n => n = "pkg-1.0.dev1.whl", fun _ => false⟩

/-- The local metadata the scanner computes for `folderEx`. -/
def mdEx : Manifest :=
  [("pkg-1.0.dev1.whl",
    { sha256 := some
        "6b86b273ff34fce19d6b804eff5a3f5747ada4eaa22f1d49c01e52ddb7875b4b",
      size := some 1 }),
   ("pkg-1.0.dev2.whl",
    { sha256 := some
        "d4735e3a265e16eee03f59718b9b5d03019c07d8b6c51f90da3a666eec13ab35",
      size := some 1 })]

/-- The store after the upload phase of the `badUpload1` scenario. -/
def stAfterBad : StoreState :=
  { containerExists := true,
    objects := [("pkg-1.0.dev2.whl", .blob [50])] }

/-- The first publish of `folderEx` into an empty store, with tasks
completing in reverse submission order. -/
def run1Ex : Except Err Unit × StoreState × List Event :=
  try_upload_once cfgEx noFaults (fun l => l.reverse) folderEx {}

/-- A second publish of the same folder into the store left by `run1Ex`,
with tasks completing in submission order. -/
def run2Ex : Except Err Unit × StoreState × List Event :=
  try_upload_once cfgEx noFaults (fun l => l) folderEx run1Ex.2.1

/-! # Theorems

## Association-list (dict) lemmas -/

theorem lookupKey_insertEntry_self {α : Type} (d : List (String × α))
    (k : String) (v : α) : lookupKey (insertEntry d k v) k = some v := by
  induction d with
  | nil => simp [insertEntry, lookupKey]
  | cons e rest ih =>
    by_cases h : e.1 = k
    · simp [insertEntry, h, lookupKey]
    · simp [insertEntry, h, lookupKey, ih]

theorem lookupKey_insertEntry_ne {α : Type} (d : List (String × α))
    (k k' : String) (v : α) (h : k' ≠ k) :
    lookupKey (insertEntry d k v) k' = lookupKey d k' := by
  have hkk : ¬(k = k') := fun hh => h hh.symm
  induction d with
  | nil => simp [insertEntry, lookupKey, hkk]
  | cons e rest ih =>
    obtain ⟨e1, e2⟩ := e
    by_cases he : e1 = k
    · subst he
      simp [insertEntry, lookupKey, hkk]
    · by_cases he' : e1 = k'
      · subst he'
        simp [insertEntry, lookupKey, he]
      · simp [insertEntry, lookupKey, he, he', ih]

theorem keys_insertEntry {α : Type} (d : List (String × α)) (k : String)
    (v : α) :
    (insertEntry d k v).map Prod.fst =
      if k ∈ d.map Prod.fst then d.map Prod.fst
      else d.map Prod.fst ++ [k] := by
  induction d with
  | nil => simp [insertEntry]
  | cons e rest ih =>
    obtain ⟨e1, e2⟩ := e
    by_cases h : e1 = k
    · subst h
      simp [insertEntry]
    · have hk : ¬(k = e1) := fun hh => h hh.symm
      simp only [insertEntry, h, if_neg, not_false_iff, List.map_cons, ih]
      by_cases hm : k ∈ rest.map Prod.fst
      · simp [hm, hk]
      · simp [hm, hk]

theorem mem_keys_insertEntry {α : Type} (d : List (String × α))
    (k a : String) (v : α) :
    a ∈ (insertEntry d k v).map Prod.fst ↔
      a ∈ d.map Prod.fst ∨ a = k := by
  rw [keys_insertEntry]
  by_cases hm : k ∈ d.map Prod.fst
  · simp only [hm, if_pos]
    constructor
    · exact Or.inl
    · rintro (h | rfl)
      · exact h
      · exact hm
  · simp [hm]

theorem nodup_keys_insertEntry {α : Type} (d : List (String × α))
    (k : String) (v : α) (h : (d.map Prod.fst).Nodup) :
    ((insertEntry d k v).map Prod.fst).Nodup := by
  rw [keys_insertEntry]
  by_cases hm : k ∈ d.map Prod.fst
  · simpa [hm]
  · simp only [hm, if_neg, not_false_iff, ← List.concat_eq_append]
    exact List.Nodup.concat hm h

theorem insertEntry_eq_self {α : Type} (d : List (String × α)) (k : String)
    (v : α) (h : lookupKey d k = some v) : insertEntry d k v = d := by
  induction d with
  | nil => simp [lookupKey] at h
  | cons e rest ih =>
    obtain ⟨e1, e2⟩ := e
    by_cases he : e1 = k
    · simp only [lookupKey, he, if_pos] at h
      have hv : e2 = v := Option.some_inj.mp h
      simp [insertEntry, he, hv]
    · simp only [lookupKey, he, if_neg] at h
      simp [insertEntry, he, ih h]

theorem dictUpdate_cons {α : Type} (d : List (String × α))
    (e : String × α) (L : List (String × α)) :
    dictUpdate d (e :: L) = dictUpdate (insertEntry d e.1 e.2) L := rfl

theorem lookupKey_dictUpdate_not_mem {α : Type} (R L : List (String × α))
    (k : String) (h : k ∉ L.map Prod.fst) :
    lookupKey (dictUpdate R L) k = lookupKey R k := by
  induction L generalizing R with
  | nil => rfl
  | cons e L' ih =>
    simp only [List.map_cons, List.mem_cons] at h
    push_neg at h
    rw [dictUpdate_cons, ih _ h.2, lookupKey_insertEntry_ne _ _ _ _ h.1]

theorem lookupKey_dictUpdate_mem {α : Type} (R L : List (String × α))
    (k : String) (hL : (L.map Prod.fst).Nodup) (h : k ∈ L.map Prod.fst) :
    lookupKey (dictUpdate R L) k = lookupKey L k := by
  induction L generalizing R with
  | nil => simp at h
  | cons e L' ih =>
    obtain ⟨e1, e2⟩ := e
    simp only [List.map_cons, List.nodup_cons] at hL
    simp only [List.map_cons, List.mem_cons] at h
    by_cases hk : e1 = k
    · subst hk
      have hnot : e1 ∉ L'.map Prod.fst := hL.1
      rw [dictUpdate_cons, lookupKey_dictUpdate_not_mem _ _ _ hnot]
      simp [lookupKey, lookupKey_insertEntry_self]
    · have hmem : k ∈ L'.map Prod.fst := by
        rcases h with h1 | h1
        · exact absurd h1.symm hk
        · exact h1
      rw [dictUpdate_cons, ih _ hL.2 hmem]
      simp [lookupKey, hk]

theorem mem_keys_dictUpdate {α : Type} (R L : List (String × α))
    (k : String) :
    k ∈ (dictUpdate R L).map Prod.fst ↔
      k ∈ R.map Prod.fst ∨ k ∈ L.map Prod.fst := by
  induction L generalizing R with
  | nil => simp [dictUpdate]
  | cons e L' ih =>
    rw [dictUpdate_cons, ih]
    rw [mem_keys_insertEntry]
    simp only [List.map_cons, List.mem_cons]
    tauto

theorem nodup_keys_dictUpdate {α : Type} (R L : List (String × α))
    (hR : (R.map Prod.fst).Nodup) :
    ((dictUpdate R L).map Prod.fst).Nodup := by
  induction L generalizing R with
  | nil => exact hR
  | cons e L' ih => exact dictUpdate_cons _ _ _ ▸ ih _ (nodup_keys_insertEntry _ _ _ hR)

theorem keys_dictUpdate_of_subset {α : Type} (R L : List (String × α))
    (h : ∀ k ∈ L.map Prod.fst, k ∈ R.map Prod.fst) :
    (dictUpdate R L).map Prod.fst = R.map Prod.fst := by
  induction L generalizing R with
  | nil => rfl
  | cons e L' ih =>
    have he : e.1 ∈ R.map Prod.fst := h e.1 (by simp)
    have hkeys : (insertEntry R e.1 e.2).map Prod.fst = R.map Prod.fst := by
      rw [keys_insertEntry]; simp [he]
    rw [dictUpdate_cons, ih _ (fun k hk => hkeys ▸ h k (by simp [hk])), hkeys]

theorem dictUpdate_idem {α : Type} (R L : List (String × α))
    (hL : (L.map Prod.fst).Nodup) :
    dictUpdate (dictUpdate R L) L = dictUpdate R L := by
  induction L generalizing R with
  | nil => rfl
  | cons e L' ih =>
    simp only [List.map_cons, List.nodup_cons] at hL
    rw [dictUpdate_cons, dictUpdate_cons]
    have hlook : lookupKey (dictUpdate (insertEntry R e.1 e.2) L') e.1 =
        some e.2 := by
      rw [lookupKey_dictUpdate_not_mem _ _ _ hL.1, lookupKey_insertEntry_self]
    rw [insertEntry_eq_self _ _ _ hlook]
    exact ih _ hL.2

/-! ## C1: merge correctness of `metadata.update(local_metadata)` -/

/-- C1: for every remote manifest `R` and (duplicate-free) local scan result
`L`, the merged manifest `metadata.update(local_metadata)` of line 77 maps
every key of `L` to `L`'s value, every key of `R` not in `L` to `R`'s value
unchanged, and its key set is exactly the union of the two key sets. -/
theorem merge_correct (R L : Manifest) (hL : (L.map Prod.fst).Nodup)
    (k : String) :
    (k ∈ L.map Prod.fst →
      lookupKey (dictUpdate R L) k = lookupKey L k) ∧
    (k ∉ L.map Prod.fst →
      lookupKey (dictUpdate R L) k = lookupKey R k) ∧
    (k ∈ (dictUpdate R L).map Prod.fst ↔
      k ∈ R.map Prod.fst ∨ k ∈ L.map Prod.fst) :=
  ⟨fun h => lookupKey_dictUpdate_mem R L k hL h,
   fun h => lookupKey_dictUpdate_not_mem R L k h,
   mem_keys_dictUpdate R L k⟩

/-- Witness for C1 at concrete manifests. -/
theorem merge_correct_witness :
    let R : Manifest := [("a.whl", { sha256 := some "r", size := some 1 }),
      ("b.whl", { sha256 := some "s", size := some 2 })]
    let L : Manifest := [("b.whl", { sha256 := some "t", size := some 3 }),
      ("c.whl", { sha256 := some "u", size := some 4 })]
    (("b.whl" ∈ L.map Prod.fst →
      lookupKey (dictUpdate R L) "b.whl" = lookupKey L "b.whl") ∧
    ("b.whl" ∉ L.map Prod.fst →
      lookupKey (dictUpdate R L) "b.whl" = lookupKey R "b.whl") ∧
    ("b.whl" ∈ (dictUpdate R L).map Prod.fst ↔
      "b.whl" ∈ R.map Prod.fst ∨ "b.whl" ∈ L.map Prod.fst)) := by
  exact merge_correct _ _ (by decide) "b.whl"

/-! ## Retry lemmas for `Uploader.upload` -/

theorem upload_succeeds (attempt : Nat → AttemptOutcome) :
    ∀ (k r start : Nat), (∀ i, i < k → attempt (start + i) = .transientError) →
      attempt (start + k) = .success → k ≤ r →
      upload attempt start r = ⟨k + 1, k, .ok⟩ := by
  intro k
  induction k with
  | zero =>
    intro r start _ hs _
    simp only [Nat.add_zero] at hs
    cases r with
    | zero => simp [upload, hs]
    | succ r' => simp [upload, hs]
  | succ k ih =>
    intro r start ht hs hkr
    have h0 : attempt start = .transientError := by
      simpa using ht 0 (Nat.succ_pos k)
    obtain ⟨r', rfl⟩ : ∃ r', r = r' + 1 := ⟨r - 1, by omega⟩
    have hrec : upload attempt (start + 1) r' = ⟨k + 1, k, .ok⟩ := by
      refine ih r' (start + 1) (fun i hi => ?_) ?_ (by omega)
      · have := ht (i + 1) (by omega)
        simpa [Nat.add_assoc, Nat.add_comm 1 i] using this
      · simpa [Nat.add_assoc, Nat.add_comm 1 k] using hs
    simp [upload, h0, hrec]

theorem upload_exhausts (attempt : Nat → AttemptOutcome) :
    ∀ (r start : Nat), (∀ i, i ≤ r → attempt (start + i) = .transientError) →
      upload attempt start r = ⟨r + 1, r, .raisedTransient⟩ := by
  intro r
  induction r with
  | zero =>
    intro start ht
    have h0 : attempt start = .transientError := by simpa using ht 0 le_rfl
    simp [upload, h0]
  | succ r ih =>
    intro start ht
    have h0 : attempt start = .transientError := by
      simpa using ht 0 (Nat.zero_le _)
    have hrec : upload attempt (start + 1) r =
        ⟨r + 1, r, .raisedTransient⟩ := by
      refine ih (start + 1) (fun i hi => ?_)
      have := ht (i + 1) (by omega)
      simpa [Nat.add_assoc, Nat.add_comm 1 i] using this
    simp [upload, h0, hrec]

theorem upload_creds (attempt : Nat → AttemptOutcome) :
    ∀ (k r start : Nat), (∀ i, i < k → attempt (start + i) = .transientError) →
      attempt (start + k) = .credsError → k ≤ r →
      upload attempt start r = ⟨k + 1, k, .raisedCreds⟩ := by
  intro k
  induction k with
  | zero =>
    intro r start _ hs _
    simp only [Nat.add_zero] at hs
    cases r with
    | zero => simp [upload, hs]
    | succ r' => simp [upload, hs]
  | succ k ih =>
    intro r start ht hs hkr
    have h0 : attempt start = .transientError := by
      simpa using ht 0 (Nat.succ_pos k)
    obtain ⟨r', rfl⟩ : ∃ r', r = r' + 1 := ⟨r - 1, by omega⟩
    have hrec : upload attempt (start + 1) r' = ⟨k + 1, k, .raisedCreds⟩ := by
      refine ih r' (start + 1) (fun i hi => ?_) ?_ (by omega)
      · have := ht (i + 1) (by omega)
        simpa [Nat.add_assoc, Nat.add_comm 1 i] using this
      · simpa [Nat.add_assoc, Nat.add_comm 1 k] using hs
    simp [upload, h0, hrec]

/-! ## C2: the retry bound (corrected) -/

/-- C2 counterexample: with `retry_on_error = 3` (the `max_retries` of the
claim) and an adapter failing transiently exactly `k = 3` times before
succeeding, the claim predicts that `upload` raises the last error (since
`k ≥ max_retries`); the code instead succeeds, on the fourth invocation.
`upload` allows `retry_on_error` retries *in addition to* the first attempt,
so `k = max_retries` failures still end in success. -/
theorem retry_bound_counterexample :
    (∀ i : Fin 3, exAttempt i.val = .transientError) ∧
    exAttempt 3 = .success ∧ 3 ≥ 3 ∧
    upload exAttempt 0 3 = ⟨4, 3, .ok⟩ := by decide

/-- C2 (amended): if the adapter fails transiently exactly `k` times and then
succeeds, then for `k ≤ retry_on_error` the publish succeeds with exactly
`k + 1` invocations of `_try_upload_once` and one fixed `sleep(1)` delay
between consecutive attempts (`k` sleeps); for `k > retry_on_error` it raises
the last (transient) error after `retry_on_error + 1` invocations. -/
theorem retry_bound (attempt : Nat → AttemptOutcome) (k r : Nat)
    (hfail : ∀ i, i < k → attempt i = .transientError)
    (hsucc : attempt k = .success) :
    (k ≤ r → upload attempt 0 r = ⟨k + 1, k, .ok⟩) ∧
    (r < k → upload attempt 0 r = ⟨r + 1, r, .raisedTransient⟩) := by
  constructor
  · intro hkr
    exact upload_succeeds attempt k r 0
      (fun i hi => by simpa using hfail i hi)
      (by simpa using hsucc) hkr
  · intro hrk
    exact upload_exhausts attempt r 0
      (fun i hi => by simpa using hfail i (by omega))

/-- Witness for C2 at the concrete oracle failing exactly 3 times. -/
theorem retry_bound_witness :
    upload exAttempt 0 5 = ⟨4, 3, .ok⟩ ∧
    upload exAttempt 0 2 = ⟨3, 2, .raisedTransient⟩ := by
  have h := retry_bound exAttempt 3 5
    (fun i hi => by simp [exAttempt, hi]) (by decide)
  have h' := retry_bound exAttempt 3 2
    (fun i hi => by simp [exAttempt, hi]) (by decide)
  exact ⟨h.1 (by omega), h'.2 (by omega)⟩

/-! ## C6: `InvalidCredsError` short-circuits the retry loop -/

/-- C6: whenever the attempt actually reached raises `InvalidCredsError`
(after `k` transient failures, with retries left), `upload` raises it at
once: exactly `k + 1` invocations and `k` delays happen, so no retry and no
delay follow the credential failure, whatever `retry_on_error` is.  With
`k = 0` this is the pure short-circuit: one invocation, zero delays, for
every retry budget. -/
theorem creds_short_circuit (attempt : Nat → AttemptOutcome) (k r : Nat)
    (hfail : ∀ i, i < k → attempt i = .transientError)
    (hcreds : attempt k = .credsError) (hkr : k ≤ r) :
    upload attempt 0 r = ⟨k + 1, k, .raisedCreds⟩ :=
  upload_creds attempt k r 0 (fun i hi => by simpa using hfail i hi)
    (by simpa using hcreds) hkr

/-- Witness for C6: credentials rejected on the third attempt, huge retry
budget; and rejected on the first attempt with budget 9. -/
theorem creds_short_circuit_witness :
    upload exCredsAttempt 0 100 = ⟨3, 2, .raisedCreds⟩ ∧
    upload (fun _ => .credsError) 0 9 = ⟨1, 0, .raisedCreds⟩ := by
  constructor
  · exact creds_short_circuit exCredsAttempt 2 100
      (fun i hi => by simp [exCredsAttempt, hi]) (by decide) (by omega)
  · exact creds_short_circuit (fun _ => .credsError) 0 9
      (fun i hi => by omega) (by decide) (by omega)

/-! ## Scanner lemmas and C7 -/

theorem lookupKey_of_mem_nodup {α : Type} (d : List (String × α))
    (k : String) (v : α) (hnd : (d.map Prod.fst).Nodup) (h : (k, v) ∈ d) :
    lookupKey d k = some v := by
  induction d with
  | nil => simp at h
  | cons e rest ih =>
    obtain ⟨e1, e2⟩ := e
    simp only [List.map_cons, List.nodup_cons] at hnd
    rcases List.mem_cons.mp h with h1 | h1
    · obtain ⟨rfl, rfl⟩ := Prod.mk.injEq .. ▸ h1
      simp [lookupKey]
    · have hne : e1 ≠ k := by
        rintro rfl
        exact hnd.1 (List.mem_map.mpr ⟨(e1, v), h1, rfl⟩)
      simp [lookupKey, hne, ih hnd.2 h1]

theorem scanGo_spec (folder : Folder) :
    ∀ (l : List String), l.Nodup →
    ∀ (names : List String) (md : Manifest),
      scanGo folder l = .ok (names, md) →
      names.Sublist l ∧ md.map Prod.fst = names ∧
      (∀ n ∈ names, isHidden n = false ∧
        ∃ c, lookupKey folder n = some (.file c) ∧
          lookupKey md n = some (mkMeta c)) ∧
      (∀ n ∈ l, isHidden n = false →
        (∃ c, lookupKey folder n = some (.file c)) → n ∈ names) := by
  intro l
  induction l with
  | nil =>
    intro _ names md h
    simp only [scanGo, Except.ok.injEq, Prod.mk.injEq] at h
    obtain ⟨rfl, rfl⟩ := h
    simp
  | cons n rest ih =>
    intro hl names md h
    simp only [List.nodup_cons] at hl
    by_cases hh : isHidden n
    · simp only [scanGo, hh, if_pos] at h
      obtain ⟨hsub, hkeys, hvals, hcompl⟩ := ih hl.2 names md h
      refine ⟨hsub.cons n, hkeys, hvals, ?_⟩
      intro n' hn' hhid hfile
      rcases List.mem_cons.mp hn' with rfl | h1
      · exact absurd hh (by simp [hhid])
      · exact hcompl n' h1 hhid hfile
    · simp only [scanGo, hh, if_neg, not_false_iff, Bool.false_eq_true] at h
      match hlook : lookupKey folder n with
      | some .dir =>
        rw [hlook] at h
        obtain ⟨hsub, hkeys, hvals, hcompl⟩ := ih hl.2 names md h
        refine ⟨hsub.cons n, hkeys, hvals, ?_⟩
        intro n' hn' hhid hfile
        rcases List.mem_cons.mp hn' with rfl | h1
        · obtain ⟨c, hc⟩ := hfile
          rw [hlook] at hc
          exact absurd hc (by simp)
        · exact hcompl n' h1 hhid hfile
      | some (.file c) =>
        rw [hlook] at h
        match hrec : scanGo folder rest with
        | .error e => rw [hrec] at h; exact absurd h (by simp)
        | .ok (ps, md') =>
          rw [hrec] at h
          simp only [Except.ok.injEq, Prod.mk.injEq] at h
          obtain ⟨rfl, rfl⟩ := h
          obtain ⟨hsub, hkeys, hvals, hcompl⟩ := ih hl.2 ps md' hrec
          refine ⟨hsub.cons₂ n, by simp [hkeys], ?_, ?_⟩
          · intro n' hn'
            rcases List.mem_cons.mp hn' with rfl | h1
            · exact ⟨eq_false_of_ne_true hh, c, hlook, by simp [lookupKey]⟩
            · obtain ⟨hhid', c', hc', hmd'⟩ := hvals n' h1
              have hne : n ≠ n' := by
                rintro rfl
                exact hl.1 (hsub.mem h1)
              exact ⟨hhid', c', hc', by simp [lookupKey, hne, hmd']⟩
          · intro n' hn' hhid hfile
            rcases List.mem_cons.mp hn' with rfl | h1
            · exact List.mem_cons_self _ _
            · exact List.mem_cons_of_mem _ (hcompl n' h1 hhid hfile)
      | some .unreadable => rw [hlook] at h; exact absurd h (by simp)
      | none => rw [hlook] at h; exact absurd h (by simp)

/-- C7: for a readable local directory (duplicate-free entry names), the
scanner of `_scan_local_files` returns its file list in lexicographically
sorted order; every returned name is a non-hidden regular file and is mapped
in the local metadata to the standard SHA-256 lowercase hex digest of its
exact byte content and to its exact byte count; every non-hidden regular
file is visited; hidden entries and subdirectories are skipped. -/
theorem scanner_correct (folder : Folder)
    (hnd : (folder.map Prod.fst).Nodup) (names : List String) (md : Manifest)
    (h : scan_local_files folder = .ok (names, md)) :
    List.Sorted strLeP names ∧
    md.map Prod.fst = names ∧
    (∀ n ∈ names, isHidden n = false ∧
      ∃ c, lookupKey folder n = some (.file c) ∧
        lookupKey md n =
          some { sha256 := some (sha256Hex c), size := some c.length }) ∧
    (∀ n c, (n, Entry.file c) ∈ folder → isHidden n = false →
      n ∈ names) ∧
    (∀ n, isHidden n = true → n ∉ names) ∧
    (∀ n, (n, Entry.dir) ∈ folder → n ∉ names) := by
  have hperm := List.perm_insertionSort strLeP (folder.map Prod.fst)
  have hsortnd : (List.insertionSort strLeP (folder.map Prod.fst)).Nodup :=
    hperm.symm.nodup hnd
  obtain ⟨hsub, hkeys, hvals, hcompl⟩ :=
    scanGo_spec folder _ hsortnd names md h
  have hsorted : List.Sorted strLeP names :=
    (List.sorted_insertionSort strLeP (folder.map Prod.fst)).sublist hsub
  refine ⟨hsorted, hkeys, fun n hn => ?_, ?_, ?_, ?_⟩
  · obtain ⟨hhid, c, hc, hmd⟩ := hvals n hn
    exact ⟨hhid, c, hc, by simpa [mkMeta] using hmd⟩
  · intro n c hmem hhid
    refine hcompl n ?_ hhid ⟨c, lookupKey_of_mem_nodup folder n _ hnd hmem⟩
    exact hperm.mem_iff.mpr (List.mem_map.mpr ⟨(n, .file c), hmem, rfl⟩)
  · intro n hhid hn
    obtain ⟨hhid', _⟩ := hvals n hn
    simp [hhid] at hhid'
  · intro n hdir hn
    obtain ⟨_, c, hc, _⟩ := hvals n hn
    rw [lookupKey_of_mem_nodup folder n _ hnd hdir] at hc
    exact absurd hc (by simp)

set_option maxRecDepth 40000 in
/-- Witness for C7 at a concrete folder containing a hidden entry, a
subdirectory, and the file `pkg.whl` with byte content `"abc"`; the digest
is the published SHA-256 test vector for `"abc"`. -/
theorem scanner_correct_witness :
    let folder := folderScanEx
    let names := ["pkg.whl"]
    let md : Manifest := [("pkg.whl",
      { sha256 := some
          "ba7816bf8f01cfea414140de5dae2223b00361a396177a9cb410ff61f20015ad",
        size := some 3 })]
    List.Sorted strLeP names ∧
    md.map Prod.fst = names ∧
    (∀ n ∈ names, isHidden n = false ∧
      ∃ c, lookupKey folder n = some (.file c) ∧
        lookupKey md n =
          some { sha256 := some (sha256Hex c), size := some c.length }) ∧
    (∀ n c, (n, Entry.file c) ∈ folder → isHidden n = false →
      n ∈ names) ∧
    (∀ n, isHidden n = true → n ∉ names) ∧
    (∀ n, (n, Entry.dir) ∈ folder → n ∉ names) :=
  scanner_correct folderScanEx (by decide) _ _ (by decide)

/-! ## Index lemmas and C4 -/

theorem strAppend_assoc (a b c : String) : a ++ b ++ c = a ++ (b ++ c) := by
  obtain ⟨a⟩ := a
  obtain ⟨b⟩ := b
  obtain ⟨c⟩ := c
  show String.mk _ = String.mk _
  simp [String.append, List.append_assoc]

theorem get_package_filenames_foldl (l : List (String × ObjectData))
    (acc : List String) :
    l.foldl (fun acc o => if reservedName o.1 then acc else acc ++ [o.1])
      acc =
    acc ++ (l.map Prod.fst).filter (fun n => !reservedName n) := by
  induction l generalizing acc with
  | nil => simp
  | cons o rest ih =>
    simp only [List.foldl_cons, List.map_cons, List.filter_cons]
    cases h : reservedName o.1 with
    | true => simp [h, ih]
    | false => simp [h, ih]

theorem get_package_filenames_eq (objects : List (String × ObjectData)) :
    get_package_filenames objects =
      (objects.map Prod.fst).filter (fun n => !reservedName n) := by
  have := get_package_filenames_foldl objects []
  simpa [get_package_filenames] using this

theorem renderBody_eq (metadata : Manifest) (acc f : String) :
    (match (lookupKey metadata f).bind FileMetadata.sha256 with
     | some digest =>
       acc ++ "<li><a href=\"" ++ f ++ "#sha256=" ++ digest ++
         "\">" ++ f ++ "<a></li>\n"
     | none =>
       acc ++ "<li><a href=\"" ++ f ++ "\">" ++ f ++
         "<a></li>\n") =
    acc ++ render_item metadata f := by
  cases h : (lookupKey metadata f).bind FileMetadata.sha256 with
  | none => simp [render_item, plainItem, h, strAppend_assoc]
  | some d => simp [render_item, fragItem, h, strAppend_assoc]

theorem update_index_payload_foldl (metadata : Manifest)
    (pkgs : List String) :
    ∀ acc : String,
    pkgs.foldl (fun payload filename =>
      match (lookupKey metadata filename).bind FileMetadata.sha256 with
      | some digest =>
        payload ++ "<li><a href=\"" ++ filename ++ "#sha256=" ++ digest ++
          "\">" ++ filename ++ "<a></li>\n"
      | none =>
        payload ++ "<li><a href=\"" ++ filename ++ "\">" ++ filename ++
          "<a></li>\n") acc =
    acc ++ concatItems metadata pkgs := by
  induction pkgs with
  | nil => intro acc; simp [concatItems]
  | cons f rest ih =>
    intro acc
    simp only [List.foldl_cons]
    rw [renderBody_eq metadata acc f, ih (acc ++ render_item metadata f),
      concatItems, strAppend_assoc]

theorem update_index_payload_eq (objects : List (String × ObjectData))
    (metadata : Manifest) :
    update_index_payload objects metadata =
      "<html><body><p>\n" ++
        concatItems metadata (get_package_filenames objects) ++
        "</p></body></html>\n" := by
  simp only [update_index_payload]
  rw [update_index_payload_foldl]

/-- C4: for a container listing without duplicate names, the package
filenames that `_update_index` renders are exactly the listed names not
ending in `.json` or `.html`, in listing order; the written document is the
header, then exactly one list item per package filename in that order, then
the footer (so each non-reserved name occurs exactly once and reserved
names never occur); and an item carries the `#sha256=<digest>` fragment in
its href if and only if the manifest has a `sha256` digest entry for that
filename. -/
theorem index_complete (objects : List (String × ObjectData))
    (metadata : Manifest) (hnd : (objects.map Prod.fst).Nodup) :
    get_package_filenames objects =
      (objects.map Prod.fst).filter (fun n => !reservedName n) ∧
    update_index_payload objects metadata =
      "<html><body><p>\n" ++
        concatItems metadata (get_package_filenames objects) ++
        "</p></body></html>\n" ∧
    (∀ n ∈ get_package_filenames objects,
      (get_package_filenames objects).count n = 1) ∧
    (∀ n, reservedName n = true →
      n ∉ get_package_filenames objects) ∧
    (∀ n, ((lookupKey metadata n).bind FileMetadata.sha256 = none →
        render_item metadata n = plainItem n) ∧
      (∀ d, (lookupKey metadata n).bind FileMetadata.sha256 = some d →
        render_item metadata n = fragItem n d)) := by
  have hpkgs := get_package_filenames_eq objects
  have hnodup : (get_package_filenames objects).Nodup := by
    rw [hpkgs]; exact hnd.filter _
  refine ⟨hpkgs, update_index_payload_eq objects metadata, ?_, ?_, ?_⟩
  · intro n hn
    exact List.count_eq_one_of_mem hnodup hn
  · intro n hres hn
    rw [hpkgs] at hn
    have := List.of_mem_filter hn
    simp [hres] at this
  · intro n
    constructor
    · intro h; simp [render_item, h]
    · intro d h; simp [render_item, h]

/-- Witness for C4 at a concrete listing (one package with a digest, one
package without one, the manifest and index objects, and a stray `.json`
object). -/
theorem index_complete_witness :
    let objects : List (String × ObjectData) :=
      [("pkg-1.0.dev2.whl", .blob [50]), ("metadata.json", .jsonManifest []),
       ("index.html", .page ""), ("notes.json", .blob [1]),
       ("other.whl", .blob [7])]
    let metadata : Manifest :=
      [("pkg-1.0.dev2.whl", { sha256 := some "d4", size := some 1 })]
    get_package_filenames objects =
      (objects.map Prod.fst).filter (fun n => !reservedName n) ∧
    update_index_payload objects metadata =
      "<html><body><p>\n" ++
        concatItems metadata (get_package_filenames objects) ++
        "</p></body></html>\n" ∧
    (∀ n ∈ get_package_filenames objects,
      (get_package_filenames objects).count n = 1) ∧
    (∀ n, reservedName n = true →
      n ∉ get_package_filenames objects) ∧
    (∀ n, ((lookupKey metadata n).bind FileMetadata.sha256 = none →
        render_item metadata n = plainItem n) ∧
      (∀ d, (lookupKey metadata n).bind FileMetadata.sha256 = some d →
        render_item metadata n = fragItem n d)) :=
  index_complete _ _ (by decide)

/-! ## Basic store lemmas -/

theorem ensureContainer_objects (st : StoreState) :
    (ensureContainer st).1.objects = st.objects := by
  by_cases h : st.containerExists <;> simp [ensureContainer, h]

theorem ensureContainer_flag (st : StoreState) :
    (ensureContainer st).1.containerExists = true := by
  by_cases h : st.containerExists <;> simp [ensureContainer, h]

theorem ensureContainer_of_exists (st : StoreState)
    (h : st.containerExists = true) : ensureContainer st = (st, []) := by
  simp [ensureContainer, h]

theorem ensureContainer_events (st : StoreState) :
    ∀ e ∈ (ensureContainer st).2, e = Event.createdContainer := by
  by_cases h : st.containerExists <;> simp [ensureContainer, h]

theorem load_metadata_ensure (st : StoreState) :
    load_metadata (ensureContainer st).1 = load_metadata st := by
  unfold load_metadata
  rw [ensureContainer_objects]

theorem uploadObject_ok (faults : Faults) (st : StoreState) (name : String)
    (data : ObjectData) (h : faults.uploadFails name = false) :
    uploadObject faults st name data =
      .ok { st with objects := insertEntry st.objects name data } := by
  simp [uploadObject, h]

/-! ## C8: missing manifest is recovered as the empty manifest -/

/-- C8: when the attempt loads the manifest, an absent `metadata.json`
(`ObjectDoesNotExistError`) yields the empty manifest instead of failing, and
a present manifest object yields its parsed content; in both cases
`_try_upload_once` proceeds into the publish pipeline (`after_load`) with
that starting manifest. -/
theorem manifest_load_recovery (st : StoreState) :
    (lookupKey st.objects metadataFilename = none →
      load_metadata st = .ok []) ∧
    (∀ m, lookupKey st.objects metadataFilename = some (.jsonManifest m) →
      load_metadata st = .ok m) ∧
    (∀ m0, load_metadata st = .ok m0 →
      ∀ (cfg : Config) (faults : Faults)
        (schedOf : List String → List String) (folder : Folder),
        try_upload_once cfg faults schedOf folder st =
          ((after_load cfg faults schedOf folder m0
              (ensureContainer st).1).1,
           (after_load cfg faults schedOf folder m0
              (ensureContainer st).1).2.1,
           (ensureContainer st).2 ++
             (after_load cfg faults schedOf folder m0
                (ensureContainer st).1).2.2)) := by
  refine ⟨fun h => ?_, fun m h => ?_, fun m0 h cfg faults schedOf folder => ?_⟩
  · simp [load_metadata, h]
  · simp [load_metadata, h]
  · have hl : load_metadata (ensureContainer st).1 = .ok m0 :=
      (load_metadata_ensure st).symm ▸ h
    simp [try_upload_once, hl]

/-- Witness for C8: a store without `metadata.json`, and one with it. -/
theorem manifest_load_recovery_witness :
    load_metadata stNoMeta = .ok [] ∧
    load_metadata stWithMeta =
      .ok [("a.whl", { sha256 := some "s", size := some 1 })] ∧
    try_upload_once cfgNoPrune noFaults (fun l => l) [] stNoMeta =
      ((after_load cfgNoPrune noFaults (fun l => l) [] []
          (ensureContainer stNoMeta).1).1,
       (after_load cfgNoPrune noFaults (fun l => l) [] []
          (ensureContainer stNoMeta).1).2.1,
       (ensureContainer stNoMeta).2 ++
         (after_load cfgNoPrune noFaults (fun l => l) [] []
            (ensureContainer stNoMeta).1).2.2) :=
  ⟨(manifest_load_recovery _).1 (by decide),
   (manifest_load_recovery _).2.1 _ (by decide),
   (manifest_load_recovery _).2.2 [] (by decide) cfgNoPrune noFaults
     (fun l => l) []⟩

/-! ## C10: a failed load or scan mutates no remote object -/

/-- C10: if loading the remote manifest raises, or the manifest loads but
the local scan raises, then `_try_upload_once` raises that error with the
container's objects exactly as before the attempt — no object was uploaded,
overwritten or deleted — and the only possible event is the creation of the
container itself. -/
theorem early_failure_no_mutation (cfg : Config) (faults : Faults)
    (schedOf : List String → List String) (folder : Folder)
    (st0 : StoreState) :
    (∀ e, load_metadata (ensureContainer st0).1 = .error e →
      try_upload_once cfg faults schedOf folder st0 =
        (.error e, (ensureContainer st0).1, (ensureContainer st0).2)) ∧
    (∀ m0 e, load_metadata (ensureContainer st0).1 = .ok m0 →
      scan_local_files folder = .error e →
      try_upload_once cfg faults schedOf folder st0 =
        (.error e, (ensureContainer st0).1, (ensureContainer st0).2)) ∧
    (ensureContainer st0).1.objects = st0.objects ∧
    (∀ ev ∈ (ensureContainer st0).2, ev = Event.createdContainer) := by
  refine ⟨fun e h => ?_, fun m0 e hl hs => ?_, ensureContainer_objects st0,
    ensureContainer_events st0⟩
  · simp [try_upload_once, h]
  · simp [try_upload_once, hl, after_load, hs]

/-- Witness for C10: a store whose `metadata.json` is not valid JSON (load
fails), and a folder with an unreadable file (scan fails). -/
theorem early_failure_no_mutation_witness :
    try_upload_once cfgNoPrune noFaults (fun l => l) folderEx stBadMeta =
      (.error .parseError, (ensureContainer stBadMeta).1,
       (ensureContainer stBadMeta).2) ∧
    try_upload_once cfgNoPrune noFaults (fun l => l) folderBad stEmptyC =
      (.error .ioError, (ensureContainer stEmptyC).1,
       (ensureContainer stEmptyC).2) :=
  ⟨(early_failure_no_mutation cfgNoPrune noFaults (fun l => l) folderEx
      stBadMeta).1 .parseError (by decide),
   (early_failure_no_mutation cfgNoPrune noFaults (fun l => l) folderBad
      stEmptyC).2.1 [] .ioError (by decide) (by decide)⟩

/-! ## Prune lemmas and C9 -/

theorem pruneLoop_all_ok (faults : Faults) :
    ∀ (l : List String) (st : StoreState),
      (∀ g ∈ l, faults.deleteFails g = false) →
      (pruneLoop faults l st).1 = .ok () ∧
      (pruneLoop faults l st).2.1.containerExists = st.containerExists := by
  intro l
  induction l with
  | nil => intro st _; simp [pruneLoop]
  | cons g rest ih =>
    intro st hdel
    have hg : faults.deleteFails g = false := hdel g (by simp)
    cases hl : lookupKey st.objects g with
    | none =>
      simp only [pruneLoop, hl]
      exact ih st (fun g' hg' => hdel g' (by simp [hg']))
    | some d =>
      simp only [pruneLoop, hl, hg, Bool.false_eq_true, if_neg,
        not_false_iff]
      exact ih _ (fun g' hg' => hdel g' (by simp [hg']))

theorem upload_file_unfold (cfg : Config) (faults : Faults)
    (folder : Folder) (name : String) (st : StoreState) (c : List Nat)
    (hc : st.containerExists = true)
    (hf : lookupKey folder name = some (.file c))
    (hup : faults.uploadFails name = false) :
    upload_file cfg faults folder name st =
      if cfg.delete_previous_dev_packages then
        ((pruneLoop faults
            (cfg.matcher name (get_package_filenames st.objects))
            { st with objects := insertEntry st.objects name (.blob c) }).1,
         (pruneLoop faults
            (cfg.matcher name (get_package_filenames st.objects))
            { st with objects := insertEntry st.objects name (.blob c) }).2.1,
         Event.uploadedFile name ::
           (pruneLoop faults
              (cfg.matcher name (get_package_filenames st.objects))
              { st with objects := insertEntry st.objects name (.blob c) }).2.2)
      else (.ok (),
        { st with objects := insertEntry st.objects name (.blob c) },
        [Event.uploadedFile name]) := by
  have hro : readFile folder name = .ok c := by simp [readFile, hf]
  simp only [upload_file, hc, hro, uploadObject, hup, Bool.true_eq_false,
    Bool.false_eq_true, if_neg, not_false_iff]

/-- C9: inside `upload_file`'s prune loop, a candidate whose object is
already absent (`ObjectDoesNotExistError` from `get_object`) is skipped as a
successful no-op; when no deletion faults are injected the whole prune loop
(and, under the stated conditions, the whole upload task) succeeds; a
deletion that raises any other error aborts with exactly that error, which
`upload_file` propagates. -/
theorem prune_delete_errors (faults : Faults) :
    (∀ (g : String) (rest : List String) (st : StoreState),
      lookupKey st.objects g = none →
      pruneLoop faults (g :: rest) st = pruneLoop faults rest st) ∧
    (∀ (l : List String) (st : StoreState),
      (∀ g ∈ l, faults.deleteFails g = false) →
      (pruneLoop faults l st).1 = .ok ()) ∧
    (∀ (g : String) (rest : List String) (st : StoreState) (d : ObjectData),
      lookupKey st.objects g = some d → faults.deleteFails g = true →
      pruneLoop faults (g :: rest) st = (.error (.deleteFailed g), st, [])) ∧
    (∀ (cfg : Config) (folder : Folder) (name : String) (st : StoreState)
        (c : List Nat),
      st.containerExists = true →
      lookupKey folder name = some (.file c) →
      faults.uploadFails name = false →
      ((∀ g, faults.deleteFails g = false) →
        (upload_file cfg faults folder name st).1 = .ok ()) ∧
      (cfg.delete_previous_dev_packages = true →
        ∀ e,
        (pruneLoop faults
          (cfg.matcher name (get_package_filenames st.objects))
          { st with objects := insertEntry st.objects name (.blob c) }).1 =
          .error e →
        (upload_file cfg faults folder name st).1 = .error e)) := by
  refine ⟨fun g rest st h => ?_, fun l st h => ?_,
    fun g rest st d hl hd => ?_, fun cfg folder name st c hc hf hup => ?_⟩
  · simp [pruneLoop, h]
  · exact (pruneLoop_all_ok faults l st h).1
  · simp [pruneLoop, hl, hd]
  · rw [upload_file_unfold cfg faults folder name st c hc hf hup]
    constructor
    · intro hdel
      by_cases hp : cfg.delete_previous_dev_packages = true
      · simp only [hp, if_pos]
        exact (pruneLoop_all_ok faults _ _ (fun g _ => hdel g)).1
      · simp [hp]
    · intro hp e herr
      simp [hp, herr]

/-- Witness for C9: a store holding one prunable older dev build and one
already-absent candidate; deletions succeed with no faults and fail with an
injected deletion fault. -/
theorem prune_delete_errors_witness :
    pruneLoop noFaults ["gone.whl", "pkg-1.0.dev1.whl"] stDev1 =
      pruneLoop noFaults ["pkg-1.0.dev1.whl"] stDev1 ∧
    (pruneLoop noFaults ["gone.whl", "pkg-1.0.dev1.whl"] stDev1).1 =
      .ok () ∧
    pruneLoop badDelete ["pkg-1.0.dev1.whl"] stDev1 =
      (.error (.deleteFailed "pkg-1.0.dev1.whl"), stDev1, []) ∧
    (upload_file cfgEx noFaults folderEx "pkg-1.0.dev2.whl" stDev1).1 =
      .ok () :=
  ⟨(prune_delete_errors noFaults).1 "gone.whl" _ stDev1 (by decide),
   (prune_delete_errors noFaults).2.1 _ stDev1 (by decide),
   (prune_delete_errors badDelete).2.2.1 "pkg-1.0.dev1.whl" [] stDev1
     (.blob [49]) (by decide) (by decide),
   ((prune_delete_errors noFaults).2.2.2 cfgEx folderEx "pkg-1.0.dev2.whl"
     stDev1 [50] (by decide) (by decide) (by decide)).1 (fun g => rfl)⟩

/-! ## Event-shape lemmas for the upload phase -/

theorem pruneLoop_events (faults : Faults) :
    ∀ (l : List String) (st : StoreState),
      ∀ e ∈ (pruneLoop faults l st).2.2, ∃ m, e = Event.deletedObject m := by
  intro l
  induction l with
  | nil => intro st e he; simp [pruneLoop] at he
  | cons g rest ih =>
    intro st e he
    cases hl : lookupKey st.objects g with
    | none =>
      rw [pruneLoop, hl] at he
      exact ih st e he
    | some d =>
      by_cases hd : faults.deleteFails g = true
      · simp [pruneLoop, hl, hd] at he
      · simp only [pruneLoop, hl, hd, Bool.false_eq_true, if_neg,
          not_false_iff, List.mem_cons] at he
        rcases he with rfl | he
        · exact ⟨g, rfl⟩
        · exact ih _ e (by simpa using he)

theorem upload_file_events (cfg : Config) (faults : Faults) (folder : Folder)
    (n : String) (st : StoreState) :
    ∀ e ∈ (upload_file cfg faults folder n st).2.2,
      (∃ m, e = Event.uploadedFile m) ∨ (∃ m, e = Event.deletedObject m) := by
  intro e he
  rw [upload_file] at he
  by_cases h1 : st.containerExists = false
  · rw [if_pos h1] at he; simp at he
  · rw [if_neg h1] at he
    cases hrf : readFile folder n with
    | error err => rw [hrf] at he; simp at he
    | ok c =>
      rw [hrf] at he
      simp only [] at he
      cases hru : uploadObject faults st n (.blob c) with
      | error err => rw [hru] at he; simp at he
      | ok st1 =>
        rw [hru] at he
        simp only [] at he
        by_cases h3 : cfg.delete_previous_dev_packages = true
        · rw [if_pos h3] at he
          simp only [List.mem_cons] at he
          rcases he with rfl | he
          · exact Or.inl ⟨n, rfl⟩
          · exact Or.inr (pruneLoop_events faults _ _ e he)
        · rw [if_neg h3] at he
          simp at he
          exact Or.inl ⟨n, he⟩

theorem uploadTasks_events (cfg : Config) (faults : Faults)
    (folder : Folder) :
    ∀ (sched : List String) (st : StoreState),
      ∀ e ∈ (uploadTasks cfg faults folder sched st).2.1,
        (∃ m, e = Event.uploadedFile m) ∨
          (∃ m, e = Event.deletedObject m) := by
  intro sched
  induction sched with
  | nil => intro st e he; simp [uploadTasks] at he
  | cons n rest ih =>
    intro st e he
    rw [uploadTasks] at he
    simp only [List.mem_append] at he
    rcases he with he | he
    · exact upload_file_events cfg faults folder n st e he
    · exact ih _ e he

theorem upload_file_ok_event (cfg : Config) (faults : Faults)
    (folder : Folder) (n : String) (st : StoreState)
    (h : (upload_file cfg faults folder n st).1 = .ok ()) :
    Event.uploadedFile n ∈ (upload_file cfg faults folder n st).2.2 := by
  rw [upload_file] at h ⊢
  by_cases h1 : st.containerExists = false
  · rw [if_pos h1] at h; simp at h
  · rw [if_neg h1] at h ⊢
    cases hrf : readFile folder n with
    | error err => rw [hrf] at h; simp at h
    | ok c =>
      rw [hrf] at h
      simp only [] at h ⊢
      cases hru : uploadObject faults st n (.blob c) with
      | error err => rw [hru] at h; simp at h
      | ok st1 =>
        rw [hru] at h
        simp only [] at h ⊢
        by_cases h3 : cfg.delete_previous_dev_packages = true
        · rw [if_pos h3]; simp
        · rw [if_neg h3]; simp

theorem uploadTasks_complete (cfg : Config) (faults : Faults)
    (folder : Folder) :
    ∀ (sched : List String) (st : StoreState),
      (uploadTasks cfg faults folder sched st).2.2 = [] →
      ∀ n ∈ sched,
        Event.uploadedFile n ∈ (uploadTasks cfg faults folder sched st).2.1 := by
  intro sched
  induction sched with
  | nil => intro st _ n hn; simp at hn
  | cons m rest ih =>
    intro st herrs n hn
    rcases hu : upload_file cfg faults folder m st with ⟨r1, st1, evs1⟩
    rw [uploadTasks, hu] at herrs ⊢
    cases r1 with
    | error e => simp at herrs
    | ok u =>
      cases u
      simp only [] at herrs
      simp only [List.mem_append]
      rcases List.mem_cons.mp hn with rfl | hn'
      · left
        have h1 : (upload_file cfg faults folder n st).1 = .ok () := by
          rw [hu]
        have h2 := upload_file_ok_event cfg faults folder n st h1
        rw [hu] at h2
        exact h2
      · right
        exact ih st1 herrs n hn'

/-! ## C5: manifest and index writes come strictly after the uploads -/

/-- C5: in every attempt, the event trace of `_try_upload_once` splits into
a prefix free of manifest/index writes followed by a tail that is empty,
`[wroteManifest]`, or `[wroteManifest, wroteIndex]` (so the manifest write
precedes the index write and both come after every upload/prune event);
whenever the tail is non-empty, the upload phase finished with no failed
task and every scheduled task's upload event is in the prefix; and whenever
some upload task failed, the tail is empty (no manifest or index write) and
the attempt raises the first error in completion order. -/
theorem manifest_after_uploads (cfg : Config) (faults : Faults)
    (schedOf : List String → List String) (folder : Folder)
    (st0 : StoreState) :
    ∃ t1 t2,
      (try_upload_once cfg faults schedOf folder st0).2.2 = t1 ++ t2 ∧
      (∀ e ∈ t1, e ≠ Event.wroteManifest ∧ e ≠ Event.wroteIndex) ∧
      (t2 = [] ∨ t2 = [Event.wroteManifest] ∨
        t2 = [Event.wroteManifest, Event.wroteIndex]) ∧
      (∀ m0, load_metadata (ensureContainer st0).1 = .ok m0 →
        ∀ fps md, scan_local_files folder = .ok (fps, md) →
        ∀ st' evs errs,
          uploadTasks cfg faults folder (schedOf fps)
            (ensureContainer st0).1 = (st', evs, errs) →
          (t2 ≠ [] → errs = [] ∧
            ∀ n ∈ schedOf fps, Event.uploadedFile n ∈ t1) ∧
          (∀ e es, errs = e :: es → t2 = [] ∧
            (try_upload_once cfg faults schedOf folder st0).1 = .error e)) := by
  have hcc : ∀ e ∈ (ensureContainer st0).2,
      e ≠ Event.wroteManifest ∧ e ≠ Event.wroteIndex := by
    intro e he
    rw [ensureContainer_events st0 e he]
    exact ⟨by simp, by simp⟩
  have hut : ∀ evs', (∀ e ∈ evs',
        (∃ m, e = Event.uploadedFile m) ∨ (∃ m, e = Event.deletedObject m)) →
      ∀ e ∈ (ensureContainer st0).2 ++ evs',
        e ≠ Event.wroteManifest ∧ e ≠ Event.wroteIndex := by
    intro evs' hevs e he
    rcases List.mem_append.mp he with he | he
    · exact hcc e he
    · rcases hevs e he with ⟨m, rfl⟩ | ⟨m, rfl⟩
      · exact ⟨by simp, by simp⟩
      · exact ⟨by simp, by simp⟩
  cases hload : load_metadata (ensureContainer st0).1 with
  | error e =>
    refine ⟨(ensureContainer st0).2, [], by simp [try_upload_once, hload],
      hcc, Or.inl rfl, ?_⟩
    intro m0 hm0
    exact absurd hm0 (by simp)
  | ok m0 =>
    cases hscan : scan_local_files folder with
    | error e =>
      refine ⟨(ensureContainer st0).2, [],
        by simp [try_upload_once, hload, after_load, hscan], hcc, Or.inl rfl,
        ?_⟩
      intro m0' _ fps md hsc
      exact absurd hsc (by simp)
    | ok pair =>
      obtain ⟨fps, md⟩ := pair
      rcases hr : uploadTasks cfg faults folder (schedOf fps)
        (ensureContainer st0).1 with ⟨st', evs, errs⟩
      have hevs : ∀ e ∈ evs,
          (∃ m, e = Event.uploadedFile m) ∨
            (∃ m, e = Event.deletedObject m) := by
        intro e he
        exact uploadTasks_events cfg faults folder (schedOf fps)
          (ensureContainer st0).1 e (by rw [hr]; exact he)
      cases herrs : errs with
      | cons e es =>
        subst herrs
        refine ⟨(ensureContainer st0).2 ++ evs, [],
          by simp [try_upload_once, hload, after_load, hscan, upload_files,
            hr], hut evs hevs, Or.inl rfl, ?_⟩
        intro m0' _ fps' md' hsc st'' evs'' errs'' hr'
        obtain ⟨rfl, rfl⟩ : fps' = fps ∧ md' = md := by
          simpa [Prod.ext_iff] using hsc.symm
        rw [hr] at hr'
        obtain ⟨rfl, rfl, rfl⟩ :
            st' = st'' ∧ evs = evs'' ∧ e :: es = errs'' := by
          simpa [Prod.ext_iff] using hr'
        refine ⟨by simp, fun e' es' heq => ?_⟩
        obtain ⟨rfl, rfl⟩ : e = e' ∧ es = es' := by simpa using heq
        exact ⟨rfl, by simp [try_upload_once, hload, after_load, hscan,
          upload_files, hr]⟩
      | nil =>
        subst herrs
        have hcomplete : ∀ n ∈ schedOf fps, Event.uploadedFile n ∈
            (ensureContainer st0).2 ++ evs := by
          intro n hn
          have h1 := uploadTasks_complete cfg faults folder (schedOf fps)
            (ensureContainer st0).1 (by rw [hr]) n hn
          rw [hr] at h1
          exact List.mem_append.mpr (Or.inr h1)
        have hmain : ∀ (t2 : List Event),
            (t2 = [] ∨ t2 = [Event.wroteManifest] ∨
              t2 = [Event.wroteManifest, Event.wroteIndex]) →
            (try_upload_once cfg faults schedOf folder st0).2.2 =
              ((ensureContainer st0).2 ++ evs) ++ t2 →
            ∃ t1 t2',
              (try_upload_once cfg faults schedOf folder st0).2.2 =
                t1 ++ t2' ∧
              (∀ e ∈ t1, e ≠ Event.wroteManifest ∧ e ≠ Event.wroteIndex) ∧
              (t2' = [] ∨ t2' = [Event.wroteManifest] ∨
                t2' = [Event.wroteManifest, Event.wroteIndex]) ∧
              (∀ m0', (Except.ok m0 : Except Err Manifest) = .ok m0' →
                ∀ fps' md',
                  (Except.ok (fps, md) :
                    Except Err (List String × Manifest)) = .ok (fps', md') →
                ∀ st'' evs'' errs'',
                  uploadTasks cfg faults folder (schedOf fps')
                    (ensureContainer st0).1 = (st'', evs'', errs'') →
                  (t2' ≠ [] → errs'' = [] ∧
                    ∀ n ∈ schedOf fps', Event.uploadedFile n ∈ t1) ∧
                  (∀ e es, errs'' = e :: es → t2' = [] ∧
                    (try_upload_once cfg faults schedOf folder st0).1 =
                      .error e)) := by
          intro t2 ht2 htr
          refine ⟨(ensureContainer st0).2 ++ evs, t2, htr, hut evs hevs,
            ht2, ?_⟩
          intro m0' _ fps' md' hsc st'' evs'' errs'' hr'
          obtain ⟨rfl, rfl⟩ : fps' = fps ∧ md' = md := by
            simpa [Prod.ext_iff] using hsc.symm
          rw [hr] at hr'
          obtain ⟨rfl, rfl, rfl⟩ :
              st' = st'' ∧ evs = evs'' ∧ ([] : List Err) = errs'' := by
            simpa [Prod.ext_iff] using hr'
          exact ⟨fun _ => ⟨rfl, hcomplete⟩, fun e es heq => by simp at heq⟩
        cases hup : uploadObject faults st' metadataFilename
            (.jsonManifest (dictUpdate m0 md)) with
        | error e =>
          exact hmain [] (Or.inl rfl)
            (by simp [try_upload_once, hload, after_load, hscan,
              upload_files, hr, upload_metadata_file, hup])
        | ok st2 =>
          by_cases hui : cfg.update_index = true
          · cases hix : uploadObject faults st2 indexFilename
                (.page (update_index_payload st2.objects
                  (dictUpdate m0 md))) with
            | error e =>
              exact hmain [Event.wroteManifest] (Or.inr (Or.inl rfl))
                (by simp [try_upload_once, hload, after_load, hscan,
                  upload_files, hr, upload_metadata_file, hup, hui,
                  update_index, hix])
            | ok st3 =>
              exact hmain [Event.wroteManifest, Event.wroteIndex]
                (Or.inr (Or.inr rfl))
                (by simp [try_upload_once, hload, after_load, hscan,
                  upload_files, hr, upload_metadata_file, hup, hui,
                  update_index, hix])
          · exact hmain [Event.wroteManifest] (Or.inr (Or.inl rfl))
              (by simp [try_upload_once, hload, after_load, hscan,
                upload_files, hr, upload_metadata_file, hup, hui])

set_option maxRecDepth 100000 in
/-- Witness for C5: with an injected fault failing the upload of
`pkg-1.0.dev1.whl`, the attempt writes neither the manifest nor the index
and raises that task's error. -/
theorem manifest_after_uploads_witness :
    Event.wroteManifest ∉
      (try_upload_once cfgNoPrune badUpload1 (fun l => l) folderEx
        stEmptyC).2.2 ∧
    Event.wroteIndex ∉
      (try_upload_once cfgNoPrune badUpload1 (fun l => l) folderEx
        stEmptyC).2.2 ∧
    (try_upload_once cfgNoPrune badUpload1 (fun l => l) folderEx
        stEmptyC).1 = .error (.uploadFailed "pkg-1.0.dev1.whl") := by
  obtain ⟨t1, t2, htr, ht1, _, hcond⟩ :=
    manifest_after_uploads cfgNoPrune badUpload1 (fun l => l) folderEx
      stEmptyC
  have h := (hcond [] (by decide)
    ["pkg-1.0.dev1.whl", "pkg-1.0.dev2.whl"] mdEx (by decide)
    stAfterBad [Event.uploadedFile "pkg-1.0.dev2.whl"]
    [Err.uploadFailed "pkg-1.0.dev1.whl"] (by decide)).2
    (.uploadFailed "pkg-1.0.dev1.whl") [] rfl
  obtain ⟨ht2, hres⟩ := h
  subst ht2
  rw [List.append_nil] at htr
  rw [htr]
  exact ⟨fun hm => (ht1 _ hm).1 rfl, fun hm => (ht1 _ hm).2 rfl, hres⟩

/-! ## Fault-free run lemmas for `_try_upload_once` -/

theorem upload_file_ok_general (cfg : Config) (faults : Faults)
    (folder : Folder) (n : String) (st : StoreState) (c : List Nat)
    (hc : st.containerExists = true)
    (hf : lookupKey folder n = some (.file c))
    (hup : faults.uploadFails n = false)
    (hdel : ∀ g, faults.deleteFails g = false) :
    (upload_file cfg faults folder n st).1 = .ok () ∧
    (upload_file cfg faults folder n st).2.1.containerExists = true ∧
    (cfg.delete_previous_dev_packages = false →
      (upload_file cfg faults folder n st).2.1.objects =
        insertEntry st.objects n (.blob c)) := by
  rw [upload_file_unfold cfg faults folder n st c hc hf hup]
  by_cases hp : cfg.delete_previous_dev_packages = true
  · have hpl := pruneLoop_all_ok faults
      (cfg.matcher n (get_package_filenames st.objects))
      { st with objects := insertEntry st.objects n (.blob c) }
      (fun g _ => hdel g)
    simp only [hc] at hpl
    refine ⟨by simp [hp, hc, hpl.1], by simp [hp, hc, hpl.2], fun hp' => ?_⟩
    rw [hp'] at hp
    exact absurd hp (by simp)
  · simp [hp, hc]

theorem uploadTasks_ok (cfg : Config) (faults : Faults) (folder : Folder)
    (hup : ∀ n, faults.uploadFails n = false)
    (hdel : ∀ g, faults.deleteFails g = false) :
    ∀ (sched : List String) (st : StoreState),
      st.containerExists = true →
      (∀ n ∈ sched, ∃ c, lookupKey folder n = some (.file c)) →
      (uploadTasks cfg faults folder sched st).2.2 = [] ∧
      (uploadTasks cfg faults folder sched st).1.containerExists = true := by
  intro sched
  induction sched with
  | nil => intro st hc _; exact ⟨rfl, hc⟩
  | cons n rest ih =>
    intro st hc hread
    obtain ⟨c, hfc⟩ := hread n (by simp)
    have h1 := upload_file_ok_general cfg faults folder n st c hc hfc
      (hup n) hdel
    rcases hu : upload_file cfg faults folder n st with ⟨r1, st1, evs1⟩
    rw [hu] at h1
    simp only [] at h1
    have h2 := ih st1 h1.2.1 (fun m hm => hread m (by simp [hm]))
    rw [uploadTasks, hu]
    simp only [h1.1]
    exact ⟨h2.1, h2.2⟩

theorem uploadTasks_noPrune_objects (cfg : Config) (faults : Faults)
    (folder : Folder) (hp : cfg.delete_previous_dev_packages = false)
    (hup : ∀ n, faults.uploadFails n = false)
    (hdel : ∀ g, faults.deleteFails g = false) :
    ∀ (sched : List String) (st : StoreState),
      st.containerExists = true →
      (∀ n ∈ sched, ∃ c, lookupKey folder n = some (.file c)) →
      (uploadTasks cfg faults folder sched st).1.objects =
        sched.foldl
          (fun obs n => insertEntry obs n (.blob (fileContent folder n)))
          st.objects := by
  intro sched
  induction sched with
  | nil => intro st _ _; simp [uploadTasks]
  | cons n rest ih =>
    intro st hc hread
    obtain ⟨c, hfc⟩ := hread n (by simp)
    have h1 := upload_file_ok_general cfg faults folder n st c hc hfc
      (hup n) hdel
    rcases hu : upload_file cfg faults folder n st with ⟨r1, st1, evs1⟩
    rw [hu] at h1
    simp only [] at h1
    have hobs : st1.objects = insertEntry st.objects n (.blob c) := h1.2.2 hp
    have hcontent : fileContent folder n = c := by simp [fileContent, hfc]
    rw [uploadTasks, hu]
    simp only [List.foldl_cons]
    rw [show ((uploadTasks cfg faults folder rest (r1, st1, evs1).2.1).1,
        evs1 ++ (uploadTasks cfg faults folder rest (r1, st1, evs1).2.1).2.1,
        match r1 with
        | Except.ok _ =>
          (uploadTasks cfg faults folder rest (r1, st1, evs1).2.1).2.2
        | Except.error e =>
          e :: (uploadTasks cfg faults folder rest
            (r1, st1, evs1).2.1).2.2).1.objects =
        (uploadTasks cfg faults folder rest st1).1.objects from rfl]
    rw [ih st1 h1.2.1 (fun m hm => hread m (by simp [hm])), hobs, hcontent]

theorem mem_keys_foldl_insert (folder : Folder) :
    ∀ (sched : List String) (obs : List (String × ObjectData)) (n : String),
      n ∈ (sched.foldl
        (fun obs m => insertEntry obs m (.blob (fileContent folder m)))
        obs).map Prod.fst ↔
      n ∈ obs.map Prod.fst ∨ n ∈ sched := by
  intro sched
  induction sched with
  | nil => intro obs n; simp
  | cons m rest ih =>
    intro obs n
    simp only [List.foldl_cons]
    rw [ih, mem_keys_insertEntry]
    simp only [List.mem_cons]
    tauto

theorem try_upload_once_run (cfg : Config) (faults : Faults)
    (schedOf : List String → List String) (folder : Folder)
    (st0 : StoreState) (fps : List String) (L R0 : Manifest)
    (hup : ∀ n, faults.uploadFails n = false)
    (hdel : ∀ g, faults.deleteFails g = false)
    (hscan : scan_local_files folder = .ok (fps, L))
    (hread : ∀ n ∈ schedOf fps, ∃ c, lookupKey folder n = some (.file c))
    (hload : load_metadata (ensureContainer st0).1 = .ok R0) :
    (try_upload_once cfg faults schedOf folder st0).1 = .ok () ∧
    lookupKey (try_upload_once cfg faults schedOf folder st0).2.1.objects
      metadataFilename = some (.jsonManifest (dictUpdate R0 L)) ∧
    (try_upload_once cfg faults schedOf folder st0).2.1.containerExists =
      true ∧
    (cfg.delete_previous_dev_packages = false →
      ∀ n, n ∈ (try_upload_once cfg faults schedOf
          folder st0).2.1.objects.map Prod.fst ↔
        (n ∈ st0.objects.map Prod.fst ∨ n ∈ schedOf fps ∨
          n = metadataFilename ∨
          (cfg.update_index = true ∧ n = indexFilename))) := by
  rcases hr : uploadTasks cfg faults folder (schedOf fps)
    (ensureContainer st0).1 with ⟨st', evs, errs⟩
  have hok := uploadTasks_ok cfg faults folder hup hdel (schedOf fps)
    (ensureContainer st0).1 (ensureContainer_flag st0) hread
  rw [hr] at hok
  simp only [] at hok
  obtain ⟨herrs, hcex⟩ := hok
  subst herrs
  have hmeta_ne : metadataFilename ≠ indexFilename := by decide
  by_cases hui : cfg.update_index = true
  · have htuo1 : (try_upload_once cfg faults schedOf folder st0).1 =
        .ok () := by
      simp [try_upload_once, hload, after_load, hscan, upload_files, hr,
        upload_metadata_file, update_index, uploadObject, hup, hui]
    have htuo2 : (try_upload_once cfg faults schedOf folder st0).2.1 =
        { containerExists := st'.containerExists,
          objects := insertEntry
            (insertEntry st'.objects metadataFilename
              (.jsonManifest (dictUpdate R0 L)))
            indexFilename
            (.page (update_index_payload
              (insertEntry st'.objects metadataFilename
                (.jsonManifest (dictUpdate R0 L)))
              (dictUpdate R0 L))) } := by
      simp [try_upload_once, hload, after_load, hscan, upload_files, hr,
        upload_metadata_file, update_index, uploadObject, hup, hui]
    refine ⟨htuo1, ?_, ?_, ?_⟩
    · rw [htuo2]
      show lookupKey (insertEntry _ indexFilename _) metadataFilename = _
      rw [lookupKey_insertEntry_ne _ _ _ _ hmeta_ne]
      exact lookupKey_insertEntry_self _ _ _
    · rw [htuo2]
      exact hcex
    · intro hp n
      rw [htuo2]
      have hobj : st'.objects =
          (schedOf fps).foldl
            (fun obs m => insertEntry obs m (.blob (fileContent folder m)))
            st0.objects := by
        have h1 := uploadTasks_noPrune_objects cfg faults folder hp hup hdel
          (schedOf fps) (ensureContainer st0).1 (ensureContainer_flag st0)
          hread
        rw [hr] at h1
        simpa [ensureContainer_objects] using h1
      show n ∈ (insertEntry (insertEntry st'.objects _ _) _ _).map
          Prod.fst ↔ _
      rw [mem_keys_insertEntry, mem_keys_insertEntry, hobj,
        mem_keys_foldl_insert]
      simp only [hui, true_and]
      tauto
  · have htuo1 : (try_upload_once cfg faults schedOf folder st0).1 =
        .ok () := by
      simp [try_upload_once, hload, after_load, hscan, upload_files, hr,
        upload_metadata_file, update_index, uploadObject, hup, hui]
    have htuo2 : (try_upload_once cfg faults schedOf folder st0).2.1 =
        { containerExists := st'.containerExists,
          objects := insertEntry st'.objects metadataFilename
            (.jsonManifest (dictUpdate R0 L)) } := by
      simp [try_upload_once, hload, after_load, hscan, upload_files, hr,
        upload_metadata_file, update_index, uploadObject, hup, hui]
    refine ⟨htuo1, ?_, ?_, ?_⟩
    · rw [htuo2]
      exact lookupKey_insertEntry_self _ _ _
    · rw [htuo2]
      exact hcex
    · intro hp n
      rw [htuo2]
      have hobj : st'.objects =
          (schedOf fps).foldl
            (fun obs m => insertEntry obs m (.blob (fileContent folder m)))
            st0.objects := by
        have h1 := uploadTasks_noPrune_objects cfg faults folder hp hup hdel
          (schedOf fps) (ensureContainer st0).1 (ensureContainer_flag st0)
          hread
        rw [hr] at h1
        simpa [ensureContainer_objects] using h1
      show n ∈ (insertEntry st'.objects _ _).map Prod.fst ↔ _
      rw [mem_keys_insertEntry, hobj, mem_keys_foldl_insert]
      simp only [hui, false_and]
      tauto

/-! ## C3: idempotence of consecutive publishes -/

set_option maxRecDepth 400000 in
/-- C3 counterexample: publishing the same local folder (two development
builds of one package) twice into the same container, with pruning enabled
and the spec-modelled dev-filename matcher, does not leave the same set of
remote object names when the two runs' task-completion orders differ: both
runs succeed, the first run leaves `pkg-1.0.dev1.whl` in the container, and
the second run deletes it (its sibling `pkg-1.0.dev2.whl`'s prune step now
sees it in the listing). -/
theorem publish_idempotent_counterexample :
    run1Ex.1 = .ok () ∧ run2Ex.1 = .ok () ∧
    "pkg-1.0.dev1.whl" ∈ run1Ex.2.1.objects.map Prod.fst ∧
    "pkg-1.0.dev1.whl" ∉ run2Ex.2.1.objects.map Prod.fst := by decide

/-- C3 (amended): running `_try_upload_once` twice in a row with the same
local folder contents against the same container (no injected faults, both
manifest loads succeeding, each run's completion order a permutation of the
scan's file list) always reproduces the same manifest object content after
the second run, and, provided dev-package pruning is disabled, also the same
set of remote object names.  (With pruning enabled the name set can differ
across runs whose completion orders differ — see the counterexample.) -/
theorem publish_idempotent (cfg : Config) (faults : Faults)
    (schedOf1 schedOf2 : List String → List String) (folder : Folder)
    (st0 : StoreState) (fps : List String) (L R0 : Manifest)
    (hup : ∀ n, faults.uploadFails n = false)
    (hdel : ∀ g, faults.deleteFails g = false)
    (hfold : (folder.map Prod.fst).Nodup)
    (hscan : scan_local_files folder = .ok (fps, L))
    (hs1 : ∀ l, (schedOf1 l).Perm l)
    (hs2 : ∀ l, (schedOf2 l).Perm l)
    (hload : load_metadata (ensureContainer st0).1 = .ok R0) :
    (try_upload_once cfg faults schedOf1 folder st0).1 = .ok () ∧
    (try_upload_once cfg faults schedOf2 folder
      (try_upload_once cfg faults schedOf1 folder st0).2.1).1 = .ok () ∧
    lookupKey (try_upload_once cfg faults schedOf2 folder
        (try_upload_once cfg faults schedOf1 folder
          st0).2.1).2.1.objects metadataFilename =
      lookupKey (try_upload_once cfg faults schedOf1 folder
        st0).2.1.objects metadataFilename ∧
    (cfg.delete_previous_dev_packages = false →
      ∀ n, (n ∈ (try_upload_once cfg faults schedOf2 folder
          (try_upload_once cfg faults schedOf1 folder
            st0).2.1).2.1.objects.map Prod.fst ↔
        n ∈ (try_upload_once cfg faults schedOf1 folder
          st0).2.1.objects.map Prod.fst)) := by
  -- facts about the scan
  have hsortnd : (List.insertionSort strLeP (folder.map Prod.fst)).Nodup :=
    (List.perm_insertionSort strLeP (folder.map Prod.fst)).symm.nodup hfold
  obtain ⟨hsub, hkeys, hvals, _⟩ := scanGo_spec folder _ hsortnd fps L
    (by simpa [scan_local_files] using hscan)
  have hfpsnd : fps.Nodup := hsub.nodup hsortnd
  have hLnd : (L.map Prod.fst).Nodup := by rw [hkeys]; exact hfpsnd
  have hreadF : ∀ n ∈ fps, ∃ c, lookupKey folder n = some (.file c) := by
    intro n hn
    obtain ⟨_, c, hc, _⟩ := hvals n hn
    exact ⟨c, hc⟩
  have hread1 : ∀ n ∈ schedOf1 fps,
      ∃ c, lookupKey folder n = some (.file c) :=
    fun n hn => hreadF n ((hs1 fps).mem_iff.mp hn)
  have hread2 : ∀ n ∈ schedOf2 fps,
      ∃ c, lookupKey folder n = some (.file c) :=
    fun n hn => hreadF n ((hs2 fps).mem_iff.mp hn)
  -- the first run
  obtain ⟨hok1, hmeta1, hcex1, hnames1⟩ := try_upload_once_run cfg faults
    schedOf1 folder st0 fps L R0 hup hdel hscan hread1 hload
  -- the manifest the second run loads is the one the first run wrote
  have hload2 : load_metadata (ensureContainer
      (try_upload_once cfg faults schedOf1 folder st0).2.1).1 =
      .ok (dictUpdate R0 L) := by
    rw [load_metadata_ensure]
    simp [load_metadata, hmeta1]
  obtain ⟨hok2, hmeta2, _, hnames2⟩ := try_upload_once_run cfg faults
    schedOf2 folder (try_upload_once cfg faults schedOf1 folder st0).2.1
    fps L (dictUpdate R0 L) hup hdel hscan hread2 hload2
  have hidem : dictUpdate (dictUpdate R0 L) L = dictUpdate R0 L :=
    dictUpdate_idem R0 L hLnd
  refine ⟨hok1, hok2, ?_, ?_⟩
  · rw [hmeta1, hmeta2, hidem]
  · intro hp n
    rw [hnames2 hp n]
    constructor
    · rintro (h | h | rfl | ⟨hui, rfl⟩)
      · exact h
      · exact (hnames1 hp n).mpr
          (Or.inr (Or.inl ((hs1 fps).mem_iff.mpr ((hs2 fps).mem_iff.mp h))))
      · exact (hnames1 hp metadataFilename).mpr (Or.inr (Or.inr (Or.inl rfl)))
      · exact (hnames1 hp indexFilename).mpr
          (Or.inr (Or.inr (Or.inr ⟨hui, rfl⟩)))
    · exact fun h => Or.inl h

set_option maxRecDepth 400000 in
/-- Witness for C3 (amended) at a concrete pair of runs: pruning disabled,
two dev builds locally, an empty initial container, and different
completion orders in the two runs. -/
theorem publish_idempotent_witness :
    (try_upload_once cfgNoPrune noFaults (fun l => l.reverse) folderEx
      stEmptyC).1 = .ok () ∧
    (try_upload_once cfgNoPrune noFaults (fun l => l) folderEx
      (try_upload_once cfgNoPrune noFaults (fun l => l.reverse) folderEx
        stEmptyC).2.1).1 = .ok () ∧
    lookupKey (try_upload_once cfgNoPrune noFaults (fun l => l) folderEx
        (try_upload_once cfgNoPrune noFaults (fun l => l.reverse) folderEx
          stEmptyC).2.1).2.1.objects metadataFilename =
      lookupKey (try_upload_once cfgNoPrune noFaults (fun l => l.reverse)
        folderEx stEmptyC).2.1.objects metadataFilename ∧
    (cfgNoPrune.delete_previous_dev_packages = false →
      ∀ n, (n ∈ (try_upload_once cfgNoPrune noFaults (fun l => l) folderEx
          (try_upload_once cfgNoPrune noFaults (fun l => l.reverse)
            folderEx stEmptyC).2.1).2.1.objects.map Prod.fst ↔
        n ∈ (try_upload_once cfgNoPrune noFaults (fun l => l.reverse)
          folderEx stEmptyC).2.1.objects.map Prod.fst)) :=
  publish_idempotent cfgNoPrune noFaults (fun l => l.reverse) (fun l => l)
    folderEx stEmptyC ["pkg-1.0.dev1.whl", "pkg-1.0.dev2.whl"] mdEx []
    (fun _ => rfl) (fun _ => rfl) (by decide) (by decide)
    (fun l => l.reverse_perm) (fun l => List.Perm.refl l) (by decide)

end Wheelhouse
